import Mathlib

/-!
Verification development for the `python_script_automation-file_sorter`
repository (package `file_sorter`, modules `config.py` and `core.py`).

The code is shallowly embedded as follows.

* A filesystem path is a list of components (`AbsPath`): the Python string
  `"/a/b/c"` is `["a", "b", "c"]`; `os.path.join(d, n)` is `d ++ [n]`,
  `os.path.dirname` is `List.dropLast`, `os.path.basename` is the last
  component.  `os.path.splitext` acts on the last component exactly as the
  CPython implementation does (split at the last dot unless the part of the
  base name before it consists only of dots).
* The filesystem state `FS` carries the set of regular files (with their
  byte contents), the set of directories, and environment-controlled failure
  sets: `unreadable` (opening for read raises `IOError`), `undeletable`
  (`os.remove` raises `OSError`), `unmovable` (`shutil.move` raises), and
  `listdirError` (`os.listdir` raises `OSError`).  `mtimeMonth` gives the
  `strftime("%Y-%m")` rendering of a file's modification time.
* `Except Unit` models an uncaught Python exception escaping a call.
* The MD5 digest of `FileSorter._get_file_hash` is modelled by the injective
  total function `digestOf` (distinct contents give distinct digests and a
  digest is never the empty-string read-failure sentinel); `_get_file_hash`
  itself, including its `except IOError: return ""` branch, is `get_file_hash`.
* The history file is persisted outside the modelled filesystem tree (the
  engine only ever compares directory entries against its base name), and
  `datetime.now()` timestamps are omitted from operation records, as nothing
  below depends on them.
-/

abbrev AbsPath := List String

/-- One entry of `FileSorter.history`: the record appended by
`sort_files` for every completed move (`core.py` lines 187-193), without the
timestamp field. -/
structure OpRecord where
  source : AbsPath
  destination : AbsPath
  filename : String
  category : String
deriving DecidableEq, Repr

/-- The modelled filesystem state together with the environment-chosen
failure behaviour of the OS calls the sorter performs. -/
structure FS where
  files : List (AbsPath × String)
  dirs : List AbsPath
  unreadable : List AbsPath
  undeletable : List AbsPath
  unmovable : List AbsPath
  listdirError : Bool
  mtimeMonth : AbsPath → String

/-- The engine state: the filesystem it acts on and the in-memory
operation history (`FileSorter.history`). -/
structure SorterState where
  fs : FS
  history : List OpRecord

/-- The statistics dictionary returned by `sort_files`. -/
structure SortStats where
  moved : Nat
  skipped : Nat
  errors : Nat
deriving DecidableEq, Repr

/-- First value bound to a file path in the file table (the table acts as a
finite map; well-formed states have distinct keys). -/
def lookupFile : List (AbsPath × String) → AbsPath → Option String
  | [], _ => none
  | e :: rest, p => if e.1 = p then some e.2 else lookupFile rest p

/-- Remove every entry for a path from the file table (`os.remove`, and the
overwrite half of a move). -/
def removeFiles : List (AbsPath × String) → AbsPath → List (AbsPath × String)
  | [], _ => []
  | e :: rest, p => if e.1 = p then removeFiles rest p else e :: removeFiles rest p

/-- Does a regular file exist at the path? -/
def isFile (fs : FS) (p : AbsPath) : Bool :=
  (lookupFile fs.files p).isSome

/-- `os.path.isdir`. -/
def isDir (fs : FS) (p : AbsPath) : Bool :=
  decide (p ∈ fs.dirs)

/-- `os.path.exists`: a regular file or a directory is at the path. -/
def pathExists (fs : FS) (p : AbsPath) : Bool :=
  isFile fs p || isDir fs p

/-- `os.remove`: fails (raises `OSError`) when the environment marks the path
undeletable or the path is a directory. -/
def removeFileOp (fs : FS) (p : AbsPath) : Except Unit FS :=
  if p ∈ fs.undeletable ∨ p ∈ fs.dirs then .error ()
  else .ok { fs with files := removeFiles fs.files p }

/-- `shutil.move` on one filesystem: fails when the environment marks the
source unmovable or there is no regular file at the source; otherwise the
file leaves `src` and replaces whatever regular file was at `dst`. -/
def moveFile (fs : FS) (src dst : AbsPath) : Except Unit FS :=
  if src ∈ fs.unmovable then .error ()
  else
    match lookupFile fs.files src with
    | none => .error ()
    | some c =>
      .ok { fs with files := removeFiles (removeFiles fs.files src) dst ++ [(dst, c)] }

/-- `os.makedirs(d, exist_ok=True)`: creates every missing prefix of `d`;
fails when a regular file sits at any prefix. -/
def makedirsExceptOk (fs : FS) (d : AbsPath) : Except Unit FS :=
  if (List.range d.length).any (fun i => isFile fs (d.take (i + 1))) then .error ()
  else
    .ok { fs with
          dirs := fs.dirs ++
            ((List.range d.length).map (fun i => d.take (i + 1))).filter
              (fun q => decide (q ∉ fs.dirs)) }

/-- The name of a direct child of `dir`, when `p` is one. -/
def childName (dir p : AbsPath) : Option String :=
  if p.take dir.length = dir ∧ p.length = dir.length + 1 then some (p.getLastD "")
  else none

/-- `os.listdir(dir)` (modulo the raising case, checked separately through
`FS.listdirError`): the names of the direct children, in the fixed
enumeration order of the state (the OS order is filesystem-defined). -/
def listdirNames (fs : FS) (dir : AbsPath) : List String :=
  (fs.files.map Prod.fst ++ fs.dirs).filterMap (childName dir)

/-- CPython `os.path.splitext` restricted to a single path component
(characters form): split at the last dot unless all characters before it are
dots. -/
def splitextChars (s : List Char) : List Char × List Char :=
  let ds := s.reverse.takeWhile (fun c => c ≠ '.')
  if ds.length = s.length then (s, [])
  else
    let extLen := ds.length + 1
    let base := s.take (s.length - extLen)
    if base.all (fun c => c = '.') then (s, [])
    else (base, s.drop (s.length - extLen))

/-- `os.path.splitext` on one path component. -/
def splitextStr (s : String) : String × String :=
  let r := splitextChars s.data
  (String.mk r.1, String.mk r.2)

/-- Python `str.lower` (ASCII case folding, as used on extensions). -/
def strLower (s : String) : String :=
  String.mk (s.data.map Char.toLower)

/-- `Config`: only the `categories` mapping matters to the engine.  The list
preserves Python dict insertion order. -/
structure Config where
  categories : List (String × List String)

/-- `Config.DEFAULT_CATEGORIES` from `config.py`. -/
def DEFAULT_CATEGORIES : List (String × List String) :=
  [("Videos", [".mp4", ".mkv", ".avi", ".mov", ".wmv", ".flv", ".webm"]),
   ("Pictures", [".jpg", ".jpeg", ".png", ".gif", ".bmp", ".svg", ".ico", ".tiff", ".webp"]),
   ("Music", [".mp3", ".wav", ".flac", ".aac", ".ogg", ".m4a", ".wma"]),
   ("Documents", [".pdf", ".docx", ".txt", ".pptx", ".xlsx", ".doc", ".xls", ".ppt", ".odt", ".rtf"]),
   ("Archives", [".zip", ".rar", ".7z", ".tar", ".gz", ".bz2", ".xz"]),
   ("Code", [".py", ".js", ".java", ".cpp", ".c", ".h", ".cs", ".php", ".rb", ".go", ".rs", ".html", ".css"]),
   ("Executables", [".exe", ".msi", ".app", ".deb", ".rpm", ".dmg"]),
   ("Spreadsheets", [".csv", ".xlsx", ".xls", ".ods"])]

/-- `Config.get_category_for_extension` (`config.py` lines 89-102): lower the
input, then return the first category whose extension list contains it. -/
def get_category_for_extension (c : Config) (extension : String) : Option String :=
  let e := strLower extension
  match c.categories.find? (fun kv => decide (e ∈ kv.2)) with
  | some kv => some kv.1
  | none => none

/-- The candidate destination probed by the `rename` collision policy:
`f"{base}_{counter}{ext}"` applied to the full destination path, which in
component form rewrites only the last component. -/
def renameCandidate (destination : AbsPath) (i : Nat) : AbsPath :=
  let r := splitextStr (destination.getLastD "")
  destination.dropLast ++ [r.1 ++ "_" ++ Nat.repr i ++ r.2]

/-- The `while os.path.exists(destination)` probe loop of the `rename`
policy.  The Python loop is unbounded; here it carries fuel, and
`rename_fuel_sufficient` below proves the fuel passed by `handle_duplicate`
always suffices to reach the first free candidate. -/
def renameLoop (fs : FS) (destination : AbsPath) : Nat → Nat → AbsPath
  | 0, i => renameCandidate destination i
  | fuel + 1, i =>
    if pathExists fs (renameCandidate destination i) then
      renameLoop fs destination fuel (i + 1)
    else renameCandidate destination i

/-- The path the `rename` policy finally returns for a colliding
destination. -/
def renameDest (fs : FS) (destination : AbsPath) : AbsPath :=
  renameLoop fs destination (fs.files.length + fs.dirs.length + 1) 1

/-- `FileSorter._handle_duplicate` (`core.py` lines 81-109).  The `.error`
result is the uncaught `OSError` of `os.remove` under the `replace` policy;
every other branch returns normally. -/
def handle_duplicate (fs : FS) (source destination : AbsPath) (strategy : String) :
    Except Unit (FS × Option AbsPath) :=
  if ¬ pathExists fs destination then .ok (fs, some destination)
  else if strategy = "skip" then .ok (fs, none)
  else if strategy = "replace" then
    match removeFileOp fs destination with
    | .error e => .error e
    | .ok fs1 => .ok (fs1, some destination)
  else if strategy = "rename" then .ok (fs, some (renameDest fs destination))
  else .ok (fs, some destination)

/-- The per-pass parameters of `sort_files` together with the engine
configuration fixed at construction: `histName` is
`os.path.basename(self.history_file)`. -/
structure SortParams where
  cfg : Config
  sourceDir : AbsPath
  histName : String
  dryRun : Bool
  strategy : String
  organizeByDate : Bool

/-- `FileSorter._ensure_directories_exist` (`core.py` lines 55-61): one
`os.makedirs` per category folder, guarded by `os.path.exists`.  The source
directory itself exists (checked at construction), so only the category
folder is created. -/
def ensure_directories_exist (cfg : Config) (createSubdirs : Bool) (sourceDir : AbsPath)
    (fs : FS) : FS :=
  if createSubdirs then
    cfg.categories.foldl
      (fun acc kv =>
        let p := sourceDir ++ [kv.1]
        if pathExists acc p then acc else { acc with dirs := acc.dirs ++ [p] })
      fs
  else fs

/-- The body of the `for filename in items` loop of `sort_files`
(`core.py` lines 135-199), one entry at a time, acting on the running
statistics, filesystem and batch of operation records. -/
def processEntry (P : SortParams) (acc : SortStats × FS × List OpRecord)
    (filename : String) : Except Unit (SortStats × FS × List OpRecord) :=
  let stats := acc.1
  let fs := acc.2.1
  let ops := acc.2.2
  let sourcePath := P.sourceDir ++ [filename]
  if isDir fs sourcePath || filename = P.histName then .ok acc
  else
    let ext := strLower (splitextStr filename).2
    match get_category_for_extension P.cfg ext with
    | none => .ok ({ stats with skipped := stats.skipped + 1 }, fs, ops)
    | some category =>
      let destDir :=
        if P.organizeByDate then P.sourceDir ++ [category, fs.mtimeMonth sourcePath]
        else P.sourceDir ++ [category]
      let destPath := destDir ++ [filename]
      match handle_duplicate fs sourcePath destPath P.strategy with
      | .error e => .error e
      | .ok (fs1, none) => .ok ({ stats with skipped := stats.skipped + 1 }, fs1, ops)
      | .ok (fs1, some finalDest) =>
        if P.dryRun then .ok ({ stats with moved := stats.moved + 1 }, fs1, ops)
        else
          match makedirsExceptOk fs1 finalDest.dropLast with
          | .error _ => .ok ({ stats with errors := stats.errors + 1 }, fs1, ops)
          | .ok fs2 =>
            match moveFile fs2 sourcePath finalDest with
            | .error _ => .ok ({ stats with errors := stats.errors + 1 }, fs2, ops)
            | .ok fs3 =>
              .ok ({ stats with moved := stats.moved + 1 }, fs3,
                ops ++ [{ source := sourcePath, destination := finalDest,
                          filename := filename, category := category }])

/-- The whole entry loop of `sort_files`; an `.error` is an uncaught
exception aborting the pass. -/
def passFold (P : SortParams) (acc : SortStats × FS × List OpRecord) :
    List String → Except Unit (SortStats × FS × List OpRecord)
  | [] => .ok acc
  | f :: rest =>
    match processEntry P acc f with
    | .error e => .error e
    | .ok acc1 => passFold P acc1 rest

/-- `FileSorter.sort_files` (`core.py` lines 111-206).  History persistence
(`save_history`) rewrites the external history file and is not part of the
modelled tree. -/
def sort_files (P : SortParams) (createSubdirs : Bool) (st : SorterState) :
    Except Unit (SortStats × SorterState) :=
  let fs0 := ensure_directories_exist P.cfg createSubdirs P.sourceDir st.fs
  if fs0.listdirError then .ok (⟨0, 0, 0⟩, ⟨fs0, st.history⟩)
  else
    match passFold P (⟨0, 0, 0⟩, fs0, []) (listdirNames fs0 P.sourceDir) with
    | .error e => .error e
    | .ok (stats, fs1, ops) =>
      .ok (stats, ⟨fs1, if ops.isEmpty || P.dryRun then st.history else st.history ++ ops⟩)

/-- One iteration body of `undo_last_operation` (`core.py` lines 226-238):
restore the popped record when its destination still exists, counting the
restore on success and swallowing `OSError` from the move. -/
def undoStep (fs : FS) (op : OpRecord) : FS × Bool :=
  if pathExists fs op.destination then
    match moveFile fs op.destination op.source with
    | .ok fs1 => (fs1, true)
    | .error _ => (fs, false)
  else (fs, false)

/-- The `for _ in range(min(count, len(history)))` loop of
`undo_last_operation`, popping from the tail of the history. -/
def undoLoop : Nat → FS → List OpRecord → FS × List OpRecord × Nat
  | 0, fs, hist => (fs, hist, 0)
  | n + 1, fs, hist =>
    if hist.isEmpty then (fs, hist, 0)
    else
      let op := hist.getLastD ⟨[], [], "", ""⟩
      let r1 := undoStep fs op
      let r2 := undoLoop n r1.1 hist.dropLast
      (r2.1, r2.2.1, r2.2.2 + if r1.2 then 1 else 0)

/-- `FileSorter.undo_last_operation` (`core.py` lines 208-241), returning the
restored count and the new engine state. -/
def undo_last_operation (count : Nat) (st : SorterState) : Nat × SorterState :=
  let r := undoLoop (min count st.history.length) st.fs st.history
  (r.2.2, ⟨r.1, r.2.1⟩)

/-- The content digest: MD5 modelled as an injective total function whose
result is never the empty string (the sentinel `_get_file_hash` reserves for
read failures). -/
def digestOf (content : String) : String :=
  "h" ++ content

/-- `FileSorter._get_file_hash` (`core.py` lines 63-79): digest of the
file contents, or `""` when reading raises `IOError` (unreadable path or no
regular file there). -/
def get_file_hash (fs : FS) (p : AbsPath) : String :=
  if p ∈ fs.unreadable then ""
  else
    match lookupFile fs.files p with
    | none => ""
    | some c => digestOf c

/-- Append a path under its digest in the hash map, preserving Python dict
insertion order (`core.py` lines 296-299). -/
def addToGroup : List (String × List AbsPath) → String → AbsPath → List (String × List AbsPath)
  | [], h, p => [(h, [p])]
  | g :: rest, h, p =>
    if g.1 = h then (h, g.2 ++ [p]) :: rest else g :: addToGroup rest h p

/-- The grouping loop of `find_duplicates` (`core.py` lines 289-299). -/
def buildHashMap (fs : FS) (sourceDir : AbsPath) (items : List String) :
    List (String × List AbsPath) :=
  items.foldl
    (fun m filename =>
      let filepath := sourceDir ++ [filename]
      if isDir fs filepath then m
      else
        let h := get_file_hash fs filepath
        if h ≠ "" then addToGroup m h filepath else m)
    []

/-- `FileSorter.find_duplicates` (`core.py` lines 273-311). -/
def find_duplicates (fs : FS) (sourceDir : AbsPath) : List (String × List AbsPath) :=
  if fs.listdirError then []
  else
    (buildHashMap fs sourceDir (listdirNames fs sourceDir)).filter
      (fun g => decide (1 < g.2.length))

/-- Well-formed filesystem states: file keys are distinct, directories are
distinct, and no path is both a regular file and a directory. -/
def FS.WF (fs : FS) : Prop :=
  (fs.files.map Prod.fst).Nodup ∧ fs.dirs.Nodup ∧
    ∀ p ∈ fs.files.map Prod.fst, p ∉ fs.dirs

/-! ### Injectivity of decimal rendering -/

/-- Decimal value of a digit character. -/
def digitVal (c : Char) : Nat := c.toNat - 48

/-- Decimal value of a digit string. -/
def digitsVal (l : List Char) : Nat :=
  l.foldl (fun a c => a * 10 + digitVal c) 0

theorem digitsVal_append_singleton (l : List Char) (c : Char) :
    digitsVal (l ++ [c]) = digitsVal l * 10 + digitVal c := by
  simp [digitsVal, List.foldl_append]

theorem toDigitsCore_shift (fuel : Nat) :
    ∀ (n : Nat) (ds : List Char),
      Nat.toDigitsCore 10 fuel n ds = Nat.toDigitsCore 10 fuel n [] ++ ds := by
  induction fuel with
  | zero => intro n ds; simp [Nat.toDigitsCore]
  | succ fuel ih =>
    intro n ds
    simp only [Nat.toDigitsCore]
    by_cases h : n / 10 = 0
    · simp [h]
    · simp only [if_neg h]
      rw [ih (n / 10) (Nat.digitChar (n % 10) :: ds),
        ih (n / 10) [Nat.digitChar (n % 10)]]
      simp

theorem digitVal_digitChar (d : Nat) (hd : d < 10) :
    digitVal (Nat.digitChar d) = d := by
  have : ∀ x : Fin 10, digitVal (Nat.digitChar x.val) = x.val := by decide
  exact this ⟨d, hd⟩

theorem digitsVal_toDigitsCore (fuel : Nat) :
    ∀ n : Nat, n < 10 ^ fuel → digitsVal (Nat.toDigitsCore 10 fuel n []) = n := by
  induction fuel with
  | zero => intro n hn; interval_cases n; simp [Nat.toDigitsCore, digitsVal]
  | succ fuel ih =>
    intro n hn
    simp only [Nat.toDigitsCore]
    by_cases h : n / 10 = 0
    · simp only [if_pos h]
      have hlt : n % 10 < 10 := Nat.mod_lt _ (by norm_num)
      have : digitsVal [Nat.digitChar (n % 10)] = n % 10 := by
        simp [digitsVal, digitVal_digitChar _ hlt]
      rw [this]
      omega
    · simp only [if_neg h]
      rw [toDigitsCore_shift, digitsVal_append_singleton]
      have hdiv : n / 10 < 10 ^ fuel := by
        rw [Nat.div_lt_iff_lt_mul (by norm_num : 0 < 10)]
        calc n < 10 ^ (fuel + 1) := hn
        _ = 10 ^ fuel * 10 := by ring
      rw [ih (n / 10) hdiv]
      have hlt : n % 10 < 10 := Nat.mod_lt _ (by norm_num)
      rw [digitVal_digitChar _ hlt]
      omega

theorem digitsVal_repr (n : Nat) : digitsVal (Nat.repr n).data = n := by
  have hlt : n < 10 ^ (n + 1) := by
    calc n < n + 1 := Nat.lt_succ_self n
    _ ≤ 10 ^ (n + 1) := Nat.le_of_lt (Nat.lt_pow_self (by norm_num) _)
  have : (Nat.repr n).data = Nat.toDigitsCore 10 (n + 1) n [] := rfl
  rw [this]
  exact digitsVal_toDigitsCore (n + 1) n hlt

theorem nat_repr_injective : Function.Injective Nat.repr := by
  intro a b h
  have : digitsVal (Nat.repr a).data = digitsVal (Nat.repr b).data := by rw [h]
  rwa [digitsVal_repr, digitsVal_repr] at this

/-! ### File-table lemmas -/

theorem lookupFile_append (l1 l2 : List (AbsPath × String)) (p : AbsPath) :
    lookupFile (l1 ++ l2) p =
      match lookupFile l1 p with
      | some v => some v
      | none => lookupFile l2 p := by
  induction l1 with
  | nil => simp [lookupFile]
  | cons e rest ih =>
    by_cases h : e.1 = p
    · simp [lookupFile, h]
    · simp [lookupFile, h, ih]

theorem lookupFile_removeFiles (l : List (AbsPath × String)) (q p : AbsPath) :
    lookupFile (removeFiles l q) p = if p = q then none else lookupFile l p := by
  induction l with
  | nil => simp [removeFiles, lookupFile]
  | cons e rest ih =>
    simp only [removeFiles, lookupFile]
    by_cases hq : e.1 = q
    · by_cases hp : p = q
      · subst hp; simp [hq, ih]
      · have hep : e.1 ≠ p := by rw [hq]; exact fun h => hp h.symm
        have hqp : q ≠ p := by rw [← hq]; exact hep
        simp [hq, hp, hep, hqp, ih, lookupFile]
    · by_cases hep : e.1 = p
      · have hp : ¬ p = q := fun h => hq (hep.trans h)
        simp [hq, hep, hp, lookupFile]
      · simp [hq, hep, ih, lookupFile]

theorem lookupFile_moveFile (fs : FS) (src dst : AbsPath) (fs1 : FS)
    (h : moveFile fs src dst = .ok fs1) (hne : src ≠ dst) :
    lookupFile fs1.files dst = lookupFile fs.files src ∧
    lookupFile fs1.files src = none ∧
    ∀ p, p ≠ src → p ≠ dst → lookupFile fs1.files p = lookupFile fs.files p := by
  unfold moveFile at h
  by_cases hu : src ∈ fs.unmovable
  · simp [hu] at h
  · simp only [if_neg hu] at h
    cases hc : lookupFile fs.files src with
    | none => rw [hc] at h; exact absurd h (by simp)
    | some c =>
      rw [hc] at h
      have hfs1 : fs1.files = removeFiles (removeFiles fs.files src) dst ++ [(dst, c)] := by
        cases h; rfl
      have hds : dst ≠ src := fun h => hne h.symm
      refine ⟨?_, ?_, ?_⟩
      · rw [hfs1, lookupFile_append, lookupFile_removeFiles]
        simp [lookupFile, hc]
      · rw [hfs1, lookupFile_append, lookupFile_removeFiles, lookupFile_removeFiles]
        simp [lookupFile, hne, hds]
      · intro p hps hpd
        have hdp : dst ≠ p := fun h => hpd h.symm
        rw [hfs1, lookupFile_append, lookupFile_removeFiles, lookupFile_removeFiles]
        cases hl : lookupFile fs.files p <;> simp [lookupFile, hps, hpd, hdp, hl]

theorem moveFile_ok_of (fs : FS) (src dst : AbsPath)
    (hu : src ∉ fs.unmovable) (hc : (lookupFile fs.files src).isSome) :
    ∃ fs1, moveFile fs src dst = .ok fs1 := by
  unfold moveFile
  rw [if_neg hu]
  cases hl : lookupFile fs.files src with
  | none => rw [hl] at hc; simp at hc
  | some c => exact ⟨_, rfl⟩

theorem moveFile_fields (fs : FS) (src dst : AbsPath) (fs1 : FS)
    (h : moveFile fs src dst = .ok fs1) :
    fs1.dirs = fs.dirs ∧ fs1.unreadable = fs.unreadable ∧
    fs1.undeletable = fs.undeletable ∧ fs1.unmovable = fs.unmovable ∧
    fs1.listdirError = fs.listdirError ∧ fs1.mtimeMonth = fs.mtimeMonth := by
  unfold moveFile at h
  by_cases hu : src ∈ fs.unmovable
  · simp [hu] at h
  · simp only [if_neg hu] at h
    cases hc : lookupFile fs.files src with
    | none => rw [hc] at h; exact absurd h (by simp)
    | some c => rw [hc] at h; cases h; exact ⟨rfl, rfl, rfl, rfl, rfl, rfl⟩

/-! ### Existence and listing lemmas -/

theorem lookupFile_isSome_iff_mem (l : List (AbsPath × String)) (p : AbsPath) :
    (lookupFile l p).isSome ↔ p ∈ l.map Prod.fst := by
  induction l with
  | nil => simp [lookupFile]
  | cons e rest ih =>
    by_cases h : e.1 = p
    · simp [lookupFile, h]
    · have : p ≠ e.1 := fun hh => h hh.symm
      simp [lookupFile, h, ih, this]

theorem pathExists_mem (fs : FS) (p : AbsPath) (h : pathExists fs p = true) :
    p ∈ fs.files.map Prod.fst ++ fs.dirs := by
  unfold pathExists isFile isDir at h
  rcases Bool.or_eq_true_iff.1 h with h1 | h1
  · exact List.mem_append_left _ ((lookupFile_isSome_iff_mem _ _).1 h1)
  · exact List.mem_append_right _ (of_decide_eq_true h1)

theorem pathExists_eq_false_iff (fs : FS) (p : AbsPath) :
    pathExists fs p = false ↔ lookupFile fs.files p = none ∧ p ∉ fs.dirs := by
  unfold pathExists isFile isDir
  constructor
  · intro h
    rcases Bool.or_eq_false_iff.1 h with ⟨h1, h2⟩
    exact ⟨Option.not_isSome_iff_eq_none.1 (by simp [h1]), of_decide_eq_false h2⟩
  · intro ⟨h1, h2⟩
    simp [h1, h2]

theorem childName_eq_some (dir p : AbsPath) (n : String) :
    childName dir p = some n ↔ p = dir ++ [n] := by
  unfold childName
  constructor
  · intro h
    by_cases hc : p.take dir.length = dir ∧ p.length = dir.length + 1
    · rw [if_pos hc] at h
      obtain ⟨ht, hl⟩ := hc
      have hdl : (p.drop dir.length).length = 1 := by
        rw [List.length_drop, hl]; omega
      obtain ⟨x, hx⟩ := List.length_eq_one.1 hdl
      have hp : p = dir ++ [x] := by
        conv_lhs => rw [← List.take_append_drop dir.length p]
        rw [ht, hx]
      injection h with h2
      rw [hp] at h2
      rw [List.getLastD_concat] at h2
      rw [hp, h2]
    · rw [if_neg hc] at h; cases h
  · intro h
    subst h
    have hc : (dir ++ [n]).take dir.length = dir ∧
        (dir ++ [n]).length = dir.length + 1 := by
      constructor
      · exact List.take_left dir [n]
      · simp
    rw [if_pos hc, List.getLastD_concat]

theorem mem_listdirNames (fs : FS) (dir : AbsPath) (n : String) :
    n ∈ listdirNames fs dir ↔ dir ++ [n] ∈ fs.files.map Prod.fst ++ fs.dirs := by
  unfold listdirNames
  rw [List.mem_filterMap]
  constructor
  · rintro ⟨p, hp, hcn⟩
    rw [childName_eq_some] at hcn
    exact hcn ▸ hp
  · intro h
    exact ⟨dir ++ [n], h, (childName_eq_some _ _ _).2 rfl⟩

theorem listdirNames_nodup (fs : FS) (dir : AbsPath) (hwf : fs.WF) :
    (listdirNames fs dir).Nodup := by
  obtain ⟨h1, h2, h3⟩ := hwf
  refine List.Nodup.filterMap ?_ (List.Nodup.append h1 h2 ?_)
  · intro a b n hn hn2
    rw [Option.mem_def, childName_eq_some] at hn hn2
    rw [hn, hn2]
  · intro p hp hq
    exact h3 p hp hq

/-! ### The `rename` probe loop -/

theorem string_append_right_cancel {a b c : String} (h : a ++ c = b ++ c) : a = b := by
  have hd : a.data ++ c.data = b.data ++ c.data := by
    have := congrArg String.data h
    simpa [String.data_append] using this
  have h2 : a.data = b.data := List.append_cancel_right hd
  exact congrArg String.mk h2

theorem string_append_left_cancel {a b c : String} (h : c ++ a = c ++ b) : a = b := by
  have hd : c.data ++ a.data = c.data ++ b.data := by
    have := congrArg String.data h
    simpa [String.data_append] using this
  have h2 : a.data = b.data := List.append_cancel_left hd
  exact congrArg String.mk h2

theorem renameCandidate_injective (destination : AbsPath) :
    Function.Injective (renameCandidate destination) := by
  intro i j h
  unfold renameCandidate at h
  have h1 := List.append_cancel_left h
  have h2 : (splitextStr (destination.getLastD "")).1 ++ "_" ++ Nat.repr i ++
      (splitextStr (destination.getLastD "")).2 =
      (splitextStr (destination.getLastD "")).1 ++ "_" ++ Nat.repr j ++
      (splitextStr (destination.getLastD "")).2 := by
    injection h1
  have h3 := string_append_right_cancel h2
  have h4 := string_append_left_cancel h3
  exact nat_repr_injective h4

theorem exists_free_candidate (fs : FS) (destination : AbsPath) :
    ∃ k, k < fs.files.length + fs.dirs.length + 1 ∧
      pathExists fs (renameCandidate destination (1 + k)) = false := by
  by_contra hcon
  push_neg at hcon
  set N := fs.files.length + fs.dirs.length with hN
  have hall : ∀ k < N + 1, pathExists fs (renameCandidate destination (1 + k)) = true := by
    intro k hk
    have := hcon k hk
    cases h : pathExists fs (renameCandidate destination (1 + k))
    · exact absurd h this
    · rfl
  set cands := (List.range (N + 1)).map (fun k => renameCandidate destination (1 + k))
    with hcands
  have hsub : cands ⊆ fs.files.map Prod.fst ++ fs.dirs := by
    intro p hp
    rw [hcands, List.mem_map] at hp
    obtain ⟨k, hk, hpk⟩ := hp
    rw [List.mem_range] at hk
    exact hpk ▸ pathExists_mem fs _ (hall k hk)
  have hnd : cands.Nodup := by
    refine List.Nodup.map ?_ (List.nodup_range _)
    intro a b hab
    have := renameCandidate_injective destination hab
    omega
  have hlen : cands.length ≤ N := by
    have hper := List.subperm_of_subset hnd hsub
    have := hper.length_le
    simpa [hN] using this
  rw [hcands] at hlen
  simp at hlen

theorem renameLoop_spec (fs : FS) (destination : AbsPath) :
    ∀ (fuel i : Nat),
      (∃ k < fuel, pathExists fs (renameCandidate destination (i + k)) = false) →
      ∃ k, (∀ j < k, pathExists fs (renameCandidate destination (i + j)) = true) ∧
        pathExists fs (renameCandidate destination (i + k)) = false ∧
        renameLoop fs destination fuel i = renameCandidate destination (i + k) := by
  intro fuel
  induction fuel with
  | zero => intro i ⟨k, hk, _⟩; omega
  | succ fuel ih =>
    intro i hex
    by_cases h0 : pathExists fs (renameCandidate destination i) = true
    · obtain ⟨k, hk, hkfree⟩ := hex
      have hkpos : k ≠ 0 := by
        intro h; rw [h] at hkfree; simp at hkfree; rw [hkfree] at h0; cases h0
      have hex2 : ∃ k < fuel,
          pathExists fs (renameCandidate destination (i + 1 + k)) = false := by
        refine ⟨k - 1, by omega, ?_⟩
        have : i + 1 + (k - 1) = i + k := by omega
        rw [this]; exact hkfree
      obtain ⟨m, hm1, hm2, hm3⟩ := ih (i + 1) hex2
      refine ⟨m + 1, ?_, ?_, ?_⟩
      · intro j hj
        cases j with
        | zero => simpa using h0
        | succ j =>
          have : i + (j + 1) = i + 1 + j := by omega
          rw [this]; exact hm1 j (by omega)
      · have : i + (m + 1) = i + 1 + m := by omega
        rw [this]; exact hm2
      · unfold renameLoop
        rw [if_pos h0]
        have : i + (m + 1) = i + 1 + m := by omega
        rw [this]; exact hm3
    · refine ⟨0, by omega, ?_, ?_⟩
      · rw [Nat.add_zero]
        cases hb : pathExists fs (renameCandidate destination i)
        · rfl
        · exact absurd hb h0
      · unfold renameLoop
        rw [if_neg h0]
        rw [Nat.add_zero]

theorem renameDest_spec (fs : FS) (destination : AbsPath) :
    ∃ i, 1 ≤ i ∧ renameDest fs destination = renameCandidate destination i ∧
      pathExists fs (renameCandidate destination i) = false ∧
      ∀ j, 1 ≤ j → j < i → pathExists fs (renameCandidate destination j) = true := by
  obtain ⟨k, hk, hfree⟩ := exists_free_candidate fs destination
  have hex : ∃ k < fs.files.length + fs.dirs.length + 1,
      pathExists fs (renameCandidate destination (1 + k)) = false := ⟨k, hk, hfree⟩
  obtain ⟨m, hm1, hm2, hm3⟩ := renameLoop_spec fs destination _ 1 hex
  refine ⟨1 + m, by omega, hm3, hm2, ?_⟩
  intro j hj1 hjm
  have : j = 1 + (j - 1) := by omega
  rw [this]
  exact hm1 (j - 1) (by omega)

theorem renameDest_not_exists (fs : FS) (destination : AbsPath) :
    pathExists fs (renameDest fs destination) = false := by
  obtain ⟨i, _, h2, h3, _⟩ := renameDest_spec fs destination
  rw [h2]; exact h3

/-! ### `handle_duplicate` branch behaviour -/

theorem handle_duplicate_no_collision (fs : FS) (source destination : AbsPath)
    (strategy : String) (h : pathExists fs destination = false) :
    handle_duplicate fs source destination strategy = .ok (fs, some destination) := by
  unfold handle_duplicate
  rw [h]
  simp

theorem handle_duplicate_skip (fs : FS) (source destination : AbsPath)
    (h : pathExists fs destination = true) :
    handle_duplicate fs source destination "skip" = .ok (fs, none) := by
  unfold handle_duplicate
  rw [h]
  simp

theorem handle_duplicate_replace_ok (fs : FS) (source destination : AbsPath)
    (h : pathExists fs destination = true)
    (hdel : destination ∉ fs.undeletable) (hdir : destination ∉ fs.dirs) :
    handle_duplicate fs source destination "replace" =
      .ok ({ fs with files := removeFiles fs.files destination }, some destination) := by
  unfold handle_duplicate removeFileOp
  rw [h]
  have : ¬ (destination ∈ fs.undeletable ∨ destination ∈ fs.dirs) := by
    rintro (hc | hc)
    · exact hdel hc
    · exact hdir hc
  simp [this]

theorem handle_duplicate_replace_error (fs : FS) (source destination : AbsPath)
    (h : pathExists fs destination = true)
    (hfail : destination ∈ fs.undeletable ∨ destination ∈ fs.dirs) :
    handle_duplicate fs source destination "replace" = .error () := by
  unfold handle_duplicate removeFileOp
  rw [h]
  simp [hfail]

theorem handle_duplicate_rename (fs : FS) (source destination : AbsPath)
    (h : pathExists fs destination = true) :
    handle_duplicate fs source destination "rename" =
      .ok (fs, some (renameDest fs destination)) := by
  unfold handle_duplicate
  rw [h]
  simp

theorem handle_duplicate_unknown (fs : FS) (source destination : AbsPath)
    (strategy : String) (h : pathExists fs destination = true)
    (h1 : strategy ≠ "skip") (h2 : strategy ≠ "replace") (h3 : strategy ≠ "rename") :
    handle_duplicate fs source destination strategy = .ok (fs, some destination) := by
  unfold handle_duplicate
  rw [h]
  simp [h1, h2, h3]

/-! ### Category lookup -/

theorem get_category_lower_input (c : Config) (a b : String)
    (h : strLower a = strLower b) :
    get_category_for_extension c a = get_category_for_extension c b := by
  unfold get_category_for_extension
  rw [h]

theorem get_category_none_of_not_listed (c : Config) (ext : String)
    (h : ∀ kv ∈ c.categories, strLower ext ∉ kv.2) :
    get_category_for_extension c ext = none := by
  have hf : List.find? (fun kv => decide (strLower ext ∈ kv.2)) c.categories = none :=
    List.find?_eq_none.2 (by intro kv hkv; simpa using h kv hkv)
  simp only [get_category_for_extension]
  rw [hf]

theorem get_category_mem (c : Config) (ext : String) (cat : String)
    (h : get_category_for_extension c ext = some cat) :
    ∃ exts, (cat, exts) ∈ c.categories ∧ strLower ext ∈ exts := by
  simp only [get_category_for_extension] at h
  cases hf : List.find? (fun kv => decide (strLower ext ∈ kv.2)) c.categories with
  | none => rw [hf] at h; cases h
  | some kv =>
    rw [hf] at h
    have hmem := List.mem_of_find?_eq_some hf
    have hsat := List.find?_some hf
    have hkv : kv.1 = cat := by injection h
    refine ⟨kv.2, ?_, by simpa using hsat⟩
    rw [← hkv]
    simpa using hmem

/-! ### The undo loop -/

theorem undoLoop_history (n : Nat) :
    ∀ (fs : FS) (hist : List OpRecord),
      (undoLoop n fs hist).2.1 = hist.take (hist.length - n) := by
  induction n with
  | zero => intro fs hist; simp [undoLoop]
  | succ n ih =>
    intro fs hist
    cases hist with
    | nil => simp [undoLoop]
    | cons e rest =>
      have hne : ((e :: rest).isEmpty) = false := rfl
      simp only [undoLoop, hne, Bool.false_eq_true, if_false]
      rw [ih]
      rw [List.dropLast_eq_take]
      rw [List.take_take]
      congr 1
      simp only [List.length_cons, List.length_take]
      omega

theorem undoStep_ok (fs : FS) (op : OpRecord)
    (hsome : (lookupFile fs.files op.destination).isSome)
    (hmov : op.destination ∉ fs.unmovable) :
    ∃ fs1, moveFile fs op.destination op.source = .ok fs1 ∧
      undoStep fs op = (fs1, true) := by
  obtain ⟨fs1, hfs1⟩ := moveFile_ok_of fs op.destination op.source hmov hsome
  refine ⟨fs1, hfs1, ?_⟩
  unfold undoStep
  have hex : pathExists fs op.destination = true := by
    unfold pathExists isFile
    rw [Bool.or_eq_true_iff]
    exact Or.inl hsome
  rw [hex, if_pos rfl, hfs1]

theorem undoLoop_restores :
    ∀ (ops : List OpRecord) (fs : FS) (h0 : List OpRecord),
      (∀ op ∈ ops, (lookupFile fs.files op.destination).isSome) →
      (∀ op ∈ ops, op.destination ∉ fs.unmovable) →
      (ops.map OpRecord.destination).Nodup →
      (ops.map OpRecord.source).Nodup →
      (∀ op1 ∈ ops, ∀ op2 ∈ ops, op1.destination ≠ op2.source) →
      (undoLoop ops.length fs (h0 ++ ops)).2.1 = h0 ∧
      (undoLoop ops.length fs (h0 ++ ops)).2.2 = ops.length ∧
      (∀ op ∈ ops,
        lookupFile (undoLoop ops.length fs (h0 ++ ops)).1.files op.source =
          lookupFile fs.files op.destination) ∧
      (∀ p, p ∉ ops.map OpRecord.source → p ∉ ops.map OpRecord.destination →
        lookupFile (undoLoop ops.length fs (h0 ++ ops)).1.files p =
          lookupFile fs.files p) := by
  intro ops
  induction ops using List.reverseRecOn with
  | nil =>
    intro fs h0 _ _ _ _ _
    refine ⟨by simp [undoLoop], by simp [undoLoop], by simp, ?_⟩
    intro p _ _
    simp [undoLoop]
  | append_singleton ops op ih =>
    intro fs h0 hsome hmov hndd hnds hcross
    have hopd : (lookupFile fs.files op.destination).isSome :=
      hsome op (by simp)
    have hopm : op.destination ∉ fs.unmovable := hmov op (by simp)
    have hdsne : op.destination ≠ op.source :=
      hcross op (by simp) op (by simp)
    obtain ⟨fs1, hmove, hstep⟩ := undoStep_ok fs op hopd hopm
    obtain ⟨hlk1, hlk2, hframe⟩ := lookupFile_moveFile fs op.destination op.source fs1
      hmove hdsne
    obtain ⟨_, _, _, hum, _, _⟩ := moveFile_fields fs op.destination op.source fs1 hmove
    have hdnotin : op.destination ∉ ops.map OpRecord.destination := by
      rw [List.map_append] at hndd
      have := List.nodup_append.1 hndd
      intro hc
      exact this.2.2 hc (by simp)
    have hsnotin : op.source ∉ ops.map OpRecord.source := by
      rw [List.map_append] at hnds
      have := List.nodup_append.1 hnds
      intro hc
      exact this.2.2 hc (by simp)
    have hsnotind : op.source ∉ ops.map OpRecord.destination := by
      rw [List.mem_map]
      rintro ⟨op1, hop1, hop1eq⟩
      exact hcross op1 (by simp [hop1]) op (by simp) hop1eq
    have hpre1 : ∀ op2 ∈ ops, (lookupFile fs1.files op2.destination).isSome := by
      intro op2 hop2
      have hne1 : op2.destination ≠ op.destination := by
        intro hc
        exact hdnotin (hc ▸ List.mem_map_of_mem OpRecord.destination hop2)
      have hne2 : op2.destination ≠ op.source := by
        intro hc
        exact hsnotind (hc ▸ List.mem_map_of_mem OpRecord.destination hop2)
      rw [hframe op2.destination hne1 hne2]
      exact hsome op2 (by simp [hop2])
    have hpre2 : ∀ op2 ∈ ops, op2.destination ∉ fs1.unmovable := by
      intro op2 hop2
      rw [hum]
      exact hmov op2 (by simp [hop2])
    have hpre3 : (ops.map OpRecord.destination).Nodup := by
      rw [List.map_append] at hndd
      exact (List.nodup_append.1 hndd).1
    have hpre4 : (ops.map OpRecord.source).Nodup := by
      rw [List.map_append] at hnds
      exact (List.nodup_append.1 hnds).1
    have hpre5 : ∀ op1 ∈ ops, ∀ op2 ∈ ops, op1.destination ≠ op2.source := by
      intro op1 h1 op2 h2
      exact hcross op1 (by simp [h1]) op2 (by simp [h2])
    have hih := ih fs1 h0 hpre1 hpre2 hpre3 hpre4 hpre5
    obtain ⟨ih1, ih2, ih3, ih4⟩ := hih
    have hlen : (ops ++ [op]).length = ops.length + 1 := by simp
    have hassoc : h0 ++ (ops ++ [op]) = (h0 ++ ops) ++ [op] := by
      rw [List.append_assoc]
    have hnonempty : ((h0 ++ ops) ++ [op]).isEmpty = false := by
      rw [List.isEmpty_eq_false_iff_exists_mem]
      exact ⟨op, by simp⟩
    have hgl : ((h0 ++ ops) ++ [op]).getLastD ⟨[], [], "", ""⟩ = op :=
      List.getLastD_concat _ _ _
    have hdl : ((h0 ++ ops) ++ [op]).dropLast = h0 ++ ops :=
      List.dropLast_concat
    have hunf : undoLoop (ops.length + 1) fs (h0 ++ (ops ++ [op])) =
        ((undoLoop ops.length fs1 (h0 ++ ops)).1,
         (undoLoop ops.length fs1 (h0 ++ ops)).2.1,
         (undoLoop ops.length fs1 (h0 ++ ops)).2.2 + 1) := by
      rw [hassoc]
      simp only [undoLoop, hnonempty, Bool.false_eq_true, if_false, hgl, hdl, hstep]
      simp
    rw [hlen, hunf]
    refine ⟨ih1, by rw [ih2], ?_, ?_⟩
    · intro op2 hop2
      rw [List.mem_append] at hop2
      rcases hop2 with hop2 | hop2
      · have hne1 : op2.destination ≠ op.destination := by
          intro hc
          exact hdnotin (hc ▸ List.mem_map_of_mem OpRecord.destination hop2)
        have hne2 : op2.destination ≠ op.source := by
          intro hc
          exact hsnotind (hc ▸ List.mem_map_of_mem OpRecord.destination hop2)
        rw [ih3 op2 hop2, hframe op2.destination hne1 hne2]
      · have hop2eq : op2 = op := by simpa using hop2
        subst hop2eq
        rw [ih4 op2.source hsnotin hsnotind, hlk1]
    · intro p hp1 hp2
      rw [List.map_append, List.mem_append] at hp1 hp2
      push_neg at hp1 hp2
      have hps : p ≠ op.source := by
        intro hc; exact hp1.2 (by simp [hc])
      have hpd : p ≠ op.destination := by
        intro hc; exact hp2.2 (by simp [hc])
      rw [ih4 p hp1.1 hp2.1, hframe p hpd hps]

/-! ### `find_duplicates` characterization -/

/-- Association lookup in the hash map built by `find_duplicates`. -/
def lookupGroup : List (String × List AbsPath) → String → Option (List AbsPath)
  | [], _ => none
  | g :: rest, h => if g.1 = h then some g.2 else lookupGroup rest h

/-- The paths among the listed entries that are non-directories and hash to
the digest `hh` (with the empty read-failure sentinel excluded, as the
grouping loop excludes it). -/
def groupPaths (fs : FS) (sourceDir : AbsPath) (items : List String) (hh : String) :
    List AbsPath :=
  (items.map (fun n => sourceDir ++ [n])).filter
    (fun p => !(isDir fs p) && get_file_hash fs p ≠ "" && get_file_hash fs p = hh)

theorem lookupGroup_addToGroup_self (m : List (String × List AbsPath)) (h : String)
    (p : AbsPath) :
    lookupGroup (addToGroup m h p) h = some ((lookupGroup m h).getD [] ++ [p]) := by
  induction m with
  | nil => simp [addToGroup, lookupGroup]
  | cons g rest ih =>
    by_cases hg : g.1 = h
    · simp [addToGroup, lookupGroup, hg]
    · simp [addToGroup, lookupGroup, hg, ih]

theorem lookupGroup_addToGroup_ne (m : List (String × List AbsPath)) (h hh : String)
    (p : AbsPath) (hne : hh ≠ h) :
    lookupGroup (addToGroup m h p) hh = lookupGroup m hh := by
  have hne2 : ¬ (h = hh) := fun hc => hne hc.symm
  induction m with
  | nil => simp [addToGroup, lookupGroup, hne2]
  | cons g rest ih =>
    simp only [addToGroup]
    by_cases hg : g.1 = h
    · rw [if_pos hg]
      simp only [lookupGroup]
      have hgne : ¬ (g.1 = hh) := by rw [hg]; exact hne2
      rw [if_neg hne2, if_neg hgne]
    · rw [if_neg hg]
      simp only [lookupGroup]
      by_cases hgh : g.1 = hh
      · rw [if_pos hgh, if_pos hgh]
      · rw [if_neg hgh, if_neg hgh, ih]

theorem addToGroup_keys (m : List (String × List AbsPath)) (h : String) (p : AbsPath) :
    (addToGroup m h p).map Prod.fst =
      if h ∈ m.map Prod.fst then m.map Prod.fst else m.map Prod.fst ++ [h] := by
  induction m with
  | nil => simp [addToGroup]
  | cons g rest ih =>
    by_cases hg : g.1 = h
    · simp [addToGroup, hg]
    · have : h ≠ g.1 := fun hc => hg hc.symm
      by_cases hmem : h ∈ rest.map Prod.fst
      · simp [addToGroup, hg, ih, hmem, this]
      · simp [addToGroup, hg, ih, hmem, this]

theorem mem_iff_lookupGroup (m : List (String × List AbsPath))
    (hnd : (m.map Prod.fst).Nodup) (g : String × List AbsPath) :
    g ∈ m ↔ lookupGroup m g.1 = some g.2 := by
  induction m with
  | nil => simp [lookupGroup]
  | cons e rest ih =>
    simp only [List.map_cons, List.nodup_cons] at hnd
    by_cases hg : e.1 = g.1
    · constructor
      · intro hmem
        rcases List.mem_cons.1 hmem with hmem1 | hmem2
        · rw [← hmem1]; simp [lookupGroup]
        · exact absurd (hg ▸ List.mem_map_of_mem Prod.fst hmem2) hnd.1
      · intro hl
        simp only [lookupGroup, if_pos hg] at hl
        have : g = e := by
          cases g; cases e
          simp only at hg hl
          injection hl with hl2
          simp [hg, hl2]
        simp [this]
    · simp only [lookupGroup, if_neg hg]
      rw [← ih hnd.2]
      constructor
      · intro hmem
        rcases List.mem_cons.1 hmem with hmem1 | hmem2
        · exact absurd (congrArg Prod.fst hmem1.symm) hg
        · exact hmem2
      · exact fun hmem => List.mem_cons_of_mem _ hmem

theorem groupPaths_nil (fs : FS) (dir : AbsPath) (hh : String) :
    groupPaths fs dir [] hh = [] := rfl

theorem buildHashMap_go (fs : FS) (dir : AbsPath) :
    ∀ (items : List String) (m : List (String × List AbsPath)),
      (∀ hh, lookupGroup (items.foldl
          (fun m filename =>
            let filepath := dir ++ [filename]
            if isDir fs filepath then m
            else
              let h := get_file_hash fs filepath
              if h ≠ "" then addToGroup m h filepath else m)
          m) hh =
        match lookupGroup m hh with
        | some l => some (l ++ groupPaths fs dir items hh)
        | none =>
          if groupPaths fs dir items hh = [] then none
          else some (groupPaths fs dir items hh)) ∧
      ((m.map Prod.fst).Nodup →
        ((items.foldl
          (fun m filename =>
            let filepath := dir ++ [filename]
            if isDir fs filepath then m
            else
              let h := get_file_hash fs filepath
              if h ≠ "" then addToGroup m h filepath else m)
          m).map Prod.fst).Nodup) := by
  intro items
  induction items with
  | nil =>
    intro m
    constructor
    · intro hh
      simp only [List.foldl_nil, groupPaths_nil]
      cases hl : lookupGroup m hh <;> simp
    · intro h; simpa using h
  | cons n rest ih =>
    intro m
    set p := dir ++ [n] with hp
    by_cases hd : isDir fs p
    · have hstep : ∀ hh, groupPaths fs dir (n :: rest) hh = groupPaths fs dir rest hh := by
        intro hh
        simp [groupPaths, ← hp, hd]
      constructor
      · intro hh
        rw [hstep]
        have := (ih m).1 hh
        simpa [List.foldl_cons, ← hp, hd] using this
      · intro hnd
        have := (ih m).2 hnd
        simpa [List.foldl_cons, ← hp, hd] using this
    · by_cases hh0 : get_file_hash fs p = ""
      · have hstep : ∀ hh, groupPaths fs dir (n :: rest) hh = groupPaths fs dir rest hh := by
          intro hh
          simp [groupPaths, ← hp, hd, hh0]
        constructor
        · intro hh
          rw [hstep]
          have := (ih m).1 hh
          simpa [List.foldl_cons, ← hp, hd, hh0] using this
        · intro hnd
          have := (ih m).2 hnd
          simpa [List.foldl_cons, ← hp, hd, hh0] using this
      · set hsh := get_file_hash fs p with hhsh
        have hstep1 : groupPaths fs dir (n :: rest) hsh = p :: groupPaths fs dir rest hsh := by
          simp [groupPaths, ← hp, hd, hh0, ← hhsh]
        have hstep2 : ∀ hh, hh ≠ hsh →
            groupPaths fs dir (n :: rest) hh = groupPaths fs dir rest hh := by
          intro hh hne
          have : ¬ (hsh = hh) := fun hc => hne hc.symm
          simp [groupPaths, ← hp, hd, hh0, ← hhsh, this]
        have hfold : (n :: rest).foldl
            (fun m filename =>
              let filepath := dir ++ [filename]
              if isDir fs filepath then m
              else
                let h := get_file_hash fs filepath
                if h ≠ "" then addToGroup m h filepath else m)
            m =
            rest.foldl
              (fun m filename =>
                let filepath := dir ++ [filename]
                if isDir fs filepath then m
                else
                  let h := get_file_hash fs filepath
                  if h ≠ "" then addToGroup m h filepath else m)
              (addToGroup m hsh p) := by
          simp [List.foldl_cons, ← hp, hd, hh0, ← hhsh]
        constructor
        · intro hh
          rw [hfold]
          have hih := (ih (addToGroup m hsh p)).1 hh
          rw [hih]
          by_cases hcase : hh = hsh
          · rw [hcase, lookupGroup_addToGroup_self, hstep1]
            cases hl : lookupGroup m hsh <;> simp [hl]
          · rw [lookupGroup_addToGroup_ne m hsh hh p hcase, hstep2 hh hcase]
        · intro hnd
          rw [hfold]
          refine (ih (addToGroup m hsh p)).2 ?_
          rw [addToGroup_keys]
          by_cases hmem : hsh ∈ m.map Prod.fst
          · simpa [hmem] using hnd
          · rw [if_neg hmem]
            refine List.Nodup.append hnd (by simp) ?_
            intro x hx hx2
            rw [List.mem_singleton] at hx2
            exact hmem (hx2 ▸ hx)

theorem buildHashMap_lookup (fs : FS) (dir : AbsPath) (items : List String) (hh : String) :
    lookupGroup (buildHashMap fs dir items) hh =
      if groupPaths fs dir items hh = [] then none
      else some (groupPaths fs dir items hh) := by
  have := (buildHashMap_go fs dir items []).1 hh
  simpa [buildHashMap, lookupGroup] using this

theorem buildHashMap_keys_nodup (fs : FS) (dir : AbsPath) (items : List String) :
    ((buildHashMap fs dir items).map Prod.fst).Nodup := by
  have := (buildHashMap_go fs dir items []).2
  simpa [buildHashMap] using this

/-! ### The sorting-pass invariant -/

/-- Invariant carried through the entry loop of `sort_files`, relating the
running state `(stats, fs, ops)` to the filesystem `fs0` the pass started
from (the state right after `_ensure_directories_exist`). -/
structure PassInv (P : SortParams) (fs0 fs : FS) (stats : SortStats)
    (ops : List OpRecord) : Prop where
  destNodup : (ops.map OpRecord.destination).Nodup
  opShape : ∀ op ∈ ops, op.source = P.sourceDir ++ [op.filename] ∧
    op.destination.length =
      P.sourceDir.length + (if P.organizeByDate then 3 else 2) ∧
    op.filename ≠ P.histName
  fnameNodup : (ops.map OpRecord.filename).Nodup
  contents : ∀ op ∈ ops, ∃ c, lookupFile fs0.files op.source = some c ∧
    lookupFile fs.files op.destination = some c
  shallowFrame : ∀ p : AbsPath, p.length ≤ P.sourceDir.length + 1 →
    lookupFile fs.files p =
      if p ∈ ops.map OpRecord.source then none else lookupFile fs0.files p
  movedCount : P.dryRun = false → stats.moved = ops.length
  destName : P.strategy ≠ "rename" →
    ∀ op ∈ ops, op.destination.getLastD "" = op.filename
  newDirsShallow : ∀ q : AbsPath, q.length = P.sourceDir.length + 1 →
    q ∈ fs.dirs →
    q ∈ fs0.dirs ∨ lookupFile fs0.files q = none ∨ q ∈ ops.map OpRecord.source
  dirsLen : ∀ q ∈ fs.dirs, q ∈ fs0.dirs ∨
    q.length ≤ P.sourceDir.length + (if P.organizeByDate then 2 else 1)
  dirsMono : fs0.dirs ⊆ fs.dirs
  unmovEq : fs.unmovable = fs0.unmovable
  undelEq : fs.undeletable = fs0.undeletable
  mtimeEq : fs.mtimeMonth = fs0.mtimeMonth
  listdirEq : fs.listdirError = fs0.listdirError
  unreadEq : fs.unreadable = fs0.unreadable
  dryOps : P.dryRun = true → ops = []
  fullFrame : P.strategy ≠ "replace" →
    ∀ p : AbsPath, p ∉ ops.map OpRecord.destination →
      lookupFile fs.files p =
        if p ∈ ops.map OpRecord.source then none else lookupFile fs0.files p

theorem PassInv.start (P : SortParams) (fs0 : FS) :
    PassInv P fs0 fs0 ⟨0, 0, 0⟩ [] := by
  refine ⟨by simp, by simp, by simp, by simp, ?_, by simp, by simp, ?_, ?_,
    fun q hq => hq, rfl, rfl, rfl, rfl, rfl, by simp, ?_⟩
  · intro p _; simp
  · intro q _ hq; exact Or.inl hq
  · intro q hq; exact Or.inl hq
  · intro _ p _; simp

theorem append_singleton_inj {d : AbsPath} {a b : String}
    (h : d ++ [a] = d ++ [b]) : a = b := by
  have := List.append_cancel_left h
  injection this

theorem mem_srcs_iff_mem_fnames (P : SortParams) (fs0 fs : FS) (stats : SortStats)
    (ops : List OpRecord) (hInv : PassInv P fs0 fs stats ops) (n : String) :
    P.sourceDir ++ [n] ∈ ops.map OpRecord.source ↔
      n ∈ ops.map OpRecord.filename := by
  constructor
  · intro h
    rw [List.mem_map] at h
    obtain ⟨op, hop, hopeq⟩ := h
    have := (hInv.opShape op hop).1
    rw [this] at hopeq
    have := append_singleton_inj hopeq.symm
    rw [this]
    exact List.mem_map_of_mem OpRecord.filename hop
  · intro h
    rw [List.mem_map] at h
    obtain ⟨op, hop, hopeq⟩ := h
    rw [List.mem_map]
    refine ⟨op, hop, ?_⟩
    rw [(hInv.opShape op hop).1, hopeq]

theorem makedirs_ok_facts (fs : FS) (d : AbsPath) (fs2 : FS)
    (h : makedirsExceptOk fs d = .ok fs2) :
    fs2.files = fs.files ∧ fs.dirs ⊆ fs2.dirs ∧
    (∀ q ∈ fs2.dirs, q ∈ fs.dirs ∨
      (q.length ≤ d.length ∧ lookupFile fs.files q = none)) ∧
    fs2.unmovable = fs.unmovable ∧ fs2.undeletable = fs.undeletable ∧
    fs2.mtimeMonth = fs.mtimeMonth ∧ fs2.listdirError = fs.listdirError ∧
    fs2.unreadable = fs.unreadable := by
  unfold makedirsExceptOk at h
  by_cases hc : (List.range d.length).any (fun i => isFile fs (d.take (i + 1))) = true
  · rw [if_pos hc] at h; cases h
  · rw [if_neg hc] at h
    have hnone : ∀ i < d.length, lookupFile fs.files (d.take (i + 1)) = none := by
      intro i hi
      rw [List.any_eq_true] at hc
      push_neg at hc
      have := hc i (by rwa [List.mem_range])
      unfold isFile at this
      cases hl : lookupFile fs.files (d.take (i + 1))
      · rfl
      · rw [hl] at this; simp at this
    cases h
    refine ⟨rfl, ?_, ?_, rfl, rfl, rfl, rfl, rfl⟩
    · intro q hq; exact List.mem_append_left _ hq
    · intro q hq
      simp only [List.mem_append] at hq
      rcases hq with hq | hq
      · exact Or.inl hq
      · rw [List.mem_filter] at hq
        obtain ⟨hq1, _⟩ := hq
        rw [List.mem_map] at hq1
        obtain ⟨i, hi, hieq⟩ := hq1
        rw [List.mem_range] at hi
        refine Or.inr ⟨?_, ?_⟩
        · rw [← hieq, List.length_take]; omega
        · rw [← hieq]; exact hnone i hi

theorem renameCandidate_length (destination : AbsPath) (i : Nat)
    (hne : destination ≠ []) :
    (renameCandidate destination i).length = destination.length := by
  unfold renameCandidate
  simp only [List.length_append, List.length_cons, List.length_nil]
  rw [List.length_dropLast]
  have : 1 ≤ destination.length := by
    cases destination
    · exact absurd rfl hne
    · simp
  omega

theorem renameDest_length (fs : FS) (destination : AbsPath)
    (hne : destination ≠ []) :
    (renameDest fs destination).length = destination.length := by
  obtain ⟨i, _, h2, _, _⟩ := renameDest_spec fs destination
  rw [h2]
  exact renameCandidate_length destination i hne

theorem PassInv.withStats {P : SortParams} {fs0 fs : FS} {stats : SortStats}
    {ops : List OpRecord} (h : PassInv P fs0 fs stats ops) (stats2 : SortStats)
    (hm : stats2.moved = stats.moved) : PassInv P fs0 fs stats2 ops :=
  { h with movedCount := fun hd => hm ▸ h.movedCount hd }

theorem handle_duplicate_none_inv (fs : FS) (source destination : AbsPath)
    (strategy : String) (fs1 : FS)
    (h : handle_duplicate fs source destination strategy = .ok (fs1, none)) :
    fs1 = fs ∧ strategy = "skip" ∧ pathExists fs destination = true := by
  unfold handle_duplicate at h
  by_cases hex : pathExists fs destination = true
  · rw [if_neg (not_not_intro hex)] at h
    by_cases hsk : strategy = "skip"
    · rw [if_pos hsk] at h
      injection h with h1
      injection h1 with h2 h3
      exact ⟨h2.symm, hsk, hex⟩
    · rw [if_neg hsk] at h
      by_cases hrp : strategy = "replace"
      · rw [if_pos hrp] at h
        cases hrm : removeFileOp fs destination with
        | error e => rw [hrm] at h; cases h
        | ok fsx => rw [hrm] at h; injection h with h1; injection h1 with h2 h3; cases h3
      · rw [if_neg hrp] at h
        by_cases hrn : strategy = "rename"
        · rw [if_pos hrn] at h
          injection h with h1; injection h1 with h2 h3; cases h3
        · rw [if_neg hrn] at h
          injection h with h1; injection h1 with h2 h3; cases h3
  · have : ¬ pathExists fs destination = true := hex
    rw [if_pos this] at h
    injection h with h1; injection h1 with h2 h3; cases h3

theorem handle_duplicate_some_facts (fs : FS) (source destination : AbsPath)
    (strategy : String) (fs1 : FS) (fd : AbsPath)
    (h : handle_duplicate fs source destination strategy = .ok (fs1, some fd)) :
    fs1.dirs = fs.dirs ∧ fs1.unmovable = fs.unmovable ∧
    fs1.undeletable = fs.undeletable ∧ fs1.mtimeMonth = fs.mtimeMonth ∧
    fs1.listdirError = fs.listdirError ∧ fs1.unreadable = fs.unreadable ∧
    (fd = destination ∨ fd = renameDest fs destination) ∧
    (pathExists fs fd = false ∨ (fd = destination ∧ strategy ≠ "rename")) ∧
    (fs1.files = fs.files ∨
      (strategy = "replace" ∧ fs1.files = removeFiles fs.files destination)) ∧
    (strategy ≠ "rename" → fd = destination) := by
  unfold handle_duplicate at h
  by_cases hex : pathExists fs destination = true
  · rw [if_neg (not_not_intro hex)] at h
    by_cases hsk : strategy = "skip"
    · rw [if_pos hsk] at h
      injection h with h1; injection h1 with h2 h3; cases h3
    · rw [if_neg hsk] at h
      by_cases hrp : strategy = "replace"
      · rw [if_pos hrp] at h
        cases hrm : removeFileOp fs destination with
        | error e => rw [hrm] at h; cases h
        | ok fsx =>
          rw [hrm] at h
          injection h with h1; injection h1 with h2 h3
          injection h3 with h4
          unfold removeFileOp at hrm
          by_cases hdel : destination ∈ fs.undeletable ∨ destination ∈ fs.dirs
          · rw [if_pos hdel] at hrm; cases hrm
          · rw [if_neg hdel] at hrm
            injection hrm with h5
            subst h2
            rw [← h5]
            refine ⟨rfl, rfl, rfl, rfl, rfl, rfl, Or.inl h4.symm, ?_, ?_, fun _ => h4.symm⟩
            · refine Or.inr ⟨h4.symm, ?_⟩
              intro hc
              rw [hc] at hrp
              exact absurd hrp (by decide)
            · exact Or.inr ⟨hrp, rfl⟩
      · rw [if_neg hrp] at h
        by_cases hrn : strategy = "rename"
        · rw [if_pos hrn] at h
          injection h with h1; injection h1 with h2 h3
          injection h3 with h4
          subst h2
          refine ⟨rfl, rfl, rfl, rfl, rfl, rfl, Or.inr h4.symm, ?_, Or.inl rfl,
            fun hc => absurd hrn hc⟩
          rw [← h4]
          exact Or.inl (renameDest_not_exists fs destination)
        · rw [if_neg hrn] at h
          injection h with h1; injection h1 with h2 h3
          injection h3 with h4
          subst h2
          exact ⟨rfl, rfl, rfl, rfl, rfl, rfl, Or.inl h4.symm,
            Or.inr ⟨h4.symm, hrn⟩, Or.inl rfl, fun _ => h4.symm⟩
  · rw [if_pos hex] at h
    injection h with h1; injection h1 with h2 h3
    injection h3 with h4
    subst h2
    have hexf : pathExists fs destination = false := by
      cases hpe : pathExists fs destination
      · rfl
      · exact absurd hpe hex
    refine ⟨rfl, rfl, rfl, rfl, rfl, rfl, Or.inl h4.symm, ?_, Or.inl rfl,
      fun _ => h4.symm⟩
    rw [h4] at hexf
    exact Or.inl hexf

theorem moveFile_ok_lookup (fs : FS) (src dst : AbsPath) (fs1 : FS)
    (h : moveFile fs src dst = .ok fs1) :
    ∃ c, lookupFile fs.files src = some c ∧ src ∉ fs.unmovable := by
  unfold moveFile at h
  by_cases hu : src ∈ fs.unmovable
  · rw [if_pos hu] at h; cases h
  · rw [if_neg hu] at h
    cases hc : lookupFile fs.files src with
    | none => rw [hc] at h; cases h
    | some c => exact ⟨c, rfl, hu⟩

set_option maxHeartbeats 1000000

theorem processEntry_preserves (P : SortParams) (fs0 fs : FS) (stats : SortStats)
    (ops : List OpRecord) (n : String)
    (hInv : PassInv P fs0 fs stats ops)
    (hn : n ∉ ops.map OpRecord.filename) :
    ∀ stats2 fs2 ops2,
      processEntry P (stats, fs, ops) n = .ok (stats2, fs2, ops2) →
      PassInv P fs0 fs2 stats2 ops2 ∧
      (ops2 = ops ∨ ∃ op, ops2 = ops ++ [op] ∧ op.filename = n ∧
        op.source = P.sourceDir ++ [n]) ∧
      stats.errors ≤ stats2.errors ∧ stats2.errors ≤ stats.errors + 1 := by
  intro stats2 fs2 ops2 hstep
  unfold processEntry at hstep
  simp only at hstep
  split at hstep
  · -- the entry is a directory or the history file: nothing happens
    injection hstep with h1
    injection h1 with ha hbc
    injection hbc with hb hc
    subst ha; subst hb; subst hc
    exact ⟨hInv, Or.inl rfl, le_refl _, Nat.le_succ _⟩
  · rename_i hcond
    rw [Bool.or_eq_true] at hcond
    push_neg at hcond
    obtain ⟨hcond1, hcond2⟩ := hcond
    have hnh : n ≠ P.histName := fun hc => hcond2 (decide_eq_true hc)
    split at hstep
    · -- no category: skipped
      injection hstep with h1
      injection h1 with ha hbc
      injection hbc with hb hc
      subst ha; subst hb; subst hc
      exact ⟨hInv.withStats _ rfl, Or.inl rfl, le_refl _, Nat.le_succ _⟩
    · rename_i cat hcat
      set destPath := (if P.organizeByDate = true then
          P.sourceDir ++ [cat, fs.mtimeMonth (P.sourceDir ++ [n])]
        else P.sourceDir ++ [cat]) ++ [n] with hdp
      have hsrcLen : (P.sourceDir ++ [n]).length = P.sourceDir.length + 1 := by simp
      have hdplen : destPath.length =
          P.sourceDir.length + (if P.organizeByDate then 3 else 2) := by
        rw [hdp]
        by_cases hoD : P.organizeByDate = true <;> simp [hoD]
      have hdpne : destPath ≠ [] := by rw [hdp]; simp
      have hdpLast : destPath.getLastD "" = n := List.getLastD_concat _ _ _
      have hdpLenBig : P.sourceDir.length + 2 ≤ destPath.length := by
        rw [hdplen]
        by_cases hoD : P.organizeByDate = true <;> simp [hoD] <;> omega
      split at hstep
      · -- uncaught exception from the resolver: not an .ok result
        cases hstep
      · -- duplicate resolver said skip
        rename_i fs1 hhd
        obtain ⟨hfs1, _, _⟩ := handle_duplicate_none_inv fs _ destPath P.strategy fs1 hhd
        subst hfs1
        injection hstep with h1
        injection h1 with ha hbc
        injection hbc with hb hc
        subst ha; subst hb; subst hc
        exact ⟨hInv.withStats _ rfl, Or.inl rfl, le_refl _, Nat.le_succ _⟩
      · -- resolver produced a final destination
        rename_i fs1 fd hhd
        obtain ⟨hd_dirs, hd_unmov, hd_undel, hd_mtime, hd_listdir, hd_unread,
          hd_fd, hd_fresh, hd_files, hd_fdrep⟩ :=
          handle_duplicate_some_facts fs _ destPath P.strategy fs1 fd hhd
        have hfdlen : fd.length = destPath.length := by
          rcases hd_fd with hfd | hfd
          · rw [hfd]
          · rw [hfd]; exact renameDest_length fs destPath hdpne
        have hfdbig : P.sourceDir.length + 2 ≤ fd.length := by
          rw [hfdlen]; exact hdpLenBig
        have hlu1 : ∀ p : AbsPath, p ≠ destPath →
            lookupFile fs1.files p = lookupFile fs.files p := by
          intro p hp
          rcases hd_files with hf | ⟨_, hf⟩
          · rw [hf]
          · rw [hf, lookupFile_removeFiles, if_neg hp]
        have hlu1s : ∀ p : AbsPath, p.length ≤ P.sourceDir.length + 1 →
            lookupFile fs1.files p = lookupFile fs.files p := by
          intro p hplen
          apply hlu1
          intro hcc
          rw [hcc] at hplen
          omega
        have hlu1dest : ∀ op ∈ ops,
            lookupFile fs1.files op.destination = lookupFile fs.files op.destination := by
          intro op hop
          rcases hd_files with hf | ⟨hrepl, hf⟩
          · rw [hf]
          · rw [hf, lookupFile_removeFiles, if_neg ?_]
            intro hcc
            have hdn := hInv.destName (by rw [hrepl]; decide) op hop
            rw [hcc, hdpLast] at hdn
            exact hn (hdn ▸ List.mem_map_of_mem OpRecord.filename hop)
        have hfd_not_old : ∀ op ∈ ops, op.destination ≠ fd := by
          intro op hop hcc
          rcases hd_fresh with hfr | ⟨hfd2, hnr⟩
          · obtain ⟨c, _, hc2⟩ := hInv.contents op hop
            rw [hcc] at hc2
            rw [((pathExists_eq_false_iff fs fd).1 hfr).1] at hc2
            cases hc2
          · have hdn := hInv.destName hnr op hop
            rw [hcc, hfd2, hdpLast] at hdn
            exact hn (hdn ▸ List.mem_map_of_mem OpRecord.filename hop)
        have hsp_not_src : P.sourceDir ++ [n] ∉ ops.map OpRecord.source := by
          rw [mem_srcs_iff_mem_fnames P fs0 fs stats ops hInv n]
          exact hn
        split at hstep
        · -- dry run: count only
          rename_i hdry
          have hops0 : ops = [] := hInv.dryOps hdry
          subst hops0
          injection hstep with h1
          injection h1 with ha hbc
          injection hbc with hb hc
          subst ha; subst hb; subst hc
          refine ⟨⟨by simp, by simp, by simp, by simp, ?_, ?_, ?_, ?_, ?_, ?_,
            hd_unmov.trans hInv.unmovEq, hd_undel.trans hInv.undelEq,
            hd_mtime.trans hInv.mtimeEq, hd_listdir.trans hInv.listdirEq,
            hd_unread.trans hInv.unreadEq, fun _ => rfl, ?_⟩,
            Or.inl rfl, le_refl _, Nat.le_succ _⟩
          · intro p hplen
            rw [hlu1s p hplen]
            have := hInv.shallowFrame p hplen
            simpa using this
          · intro hf; rw [hf] at hdry; cases hdry
          · intro _ op hop; exact absurd hop (List.not_mem_nil op)
          · intro q hqlen hq
            rw [hd_dirs] at hq
            exact hInv.newDirsShallow q hqlen hq
          · intro q hq
            rw [hd_dirs] at hq
            exact hInv.dirsLen q hq
          · intro q hq
            rw [hd_dirs]
            exact hInv.dirsMono hq
          · intro hnrep p hpd
            rcases hd_files with hf | ⟨hrepl, _⟩
            · rw [hf]
              have := hInv.fullFrame hnrep p (by simp)
              simpa using this
            · exact absurd hrepl hnrep
        · rename_i hdry
          have hdryf : P.dryRun = false := by
            cases hPd : P.dryRun
            · rfl
            · exact absurd hPd hdry
          split at hstep
          · -- makedirs failed: per-file error
            injection hstep with h1
            injection h1 with ha hbc
            injection hbc with hb hc
            subst ha; subst hb; subst hc
            refine ⟨⟨hInv.destNodup, hInv.opShape, hInv.fnameNodup, ?_, ?_, ?_,
              hInv.destName, ?_, ?_, ?_,
              hd_unmov.trans hInv.unmovEq, hd_undel.trans hInv.undelEq,
              hd_mtime.trans hInv.mtimeEq, hd_listdir.trans hInv.listdirEq,
              hd_unread.trans hInv.unreadEq, ?_, ?_⟩,
              Or.inl rfl, Nat.le_succ _, le_refl _⟩
            · intro op hop
              obtain ⟨c, hc0, hcc⟩ := hInv.contents op hop
              exact ⟨c, hc0, by rw [hlu1dest op hop]; exact hcc⟩
            · intro p hplen
              rw [hlu1s p hplen]
              exact hInv.shallowFrame p hplen
            · intro hf
              exact hInv.movedCount hf
            · intro q hqlen hq
              rw [hd_dirs] at hq
              exact hInv.newDirsShallow q hqlen hq
            · intro q hq
              rw [hd_dirs] at hq
              exact hInv.dirsLen q hq
            · intro q hq
              rw [hd_dirs]
              exact hInv.dirsMono hq
            · intro hd; exact absurd hd hdry
            · intro hnrep p hpd
              rcases hd_files with hf | ⟨hrepl, _⟩
              · rw [hf]
                exact hInv.fullFrame hnrep p hpd
              · exact absurd hrepl hnrep
          · rename_i fs2x hmk
            obtain ⟨hmk_files, hmk_mono, hmk_new, hmk_unmov, hmk_undel,
              hmk_mtime, hmk_listdir, hmk_unread⟩ :=
              makedirs_ok_facts fs1 fd.dropLast fs2x hmk
            have hddlen : fd.dropLast.length =
                P.sourceDir.length + (if P.organizeByDate then 2 else 1) := by
              rw [List.length_dropLast, hfdlen, hdplen]
              by_cases hoD : P.organizeByDate = true <;> simp [hoD] <;> omega
            have hnds2 : ∀ q : AbsPath, q.length = P.sourceDir.length + 1 →
                q ∈ fs2x.dirs →
                q ∈ fs0.dirs ∨ lookupFile fs0.files q = none ∨
                  q ∈ ops.map OpRecord.source := by
              intro q hqlen hq
              rcases hmk_new q hq with hq1 | ⟨_, hqnone⟩
              · rw [hd_dirs] at hq1
                exact hInv.newDirsShallow q hqlen hq1
              · rw [hlu1s q (le_of_eq hqlen)] at hqnone
                have hsf := hInv.shallowFrame q (le_of_eq hqlen)
                by_cases hqsrc : q ∈ ops.map OpRecord.source
                · exact Or.inr (Or.inr hqsrc)
                · rw [if_neg hqsrc] at hsf
                  rw [← hsf]
                  exact Or.inr (Or.inl hqnone)
            have hdl2 : ∀ q ∈ fs2x.dirs, q ∈ fs0.dirs ∨
                q.length ≤ P.sourceDir.length + (if P.organizeByDate then 2 else 1) := by
              intro q hq
              rcases hmk_new q hq with hq1 | ⟨hqlen2, _⟩
              · rw [hd_dirs] at hq1
                exact hInv.dirsLen q hq1
              · rw [hddlen] at hqlen2
                exact Or.inr hqlen2
            have hdm2 : fs0.dirs ⊆ fs2x.dirs := by
              intro q hq
              apply hmk_mono
              rw [hd_dirs]
              exact hInv.dirsMono hq
            split at hstep
            · -- move failed: per-file error
              injection hstep with h1
              injection h1 with ha hbc
              injection hbc with hb hc
              subst ha; subst hb; subst hc
              refine ⟨⟨hInv.destNodup, hInv.opShape, hInv.fnameNodup, ?_, ?_, ?_,
                hInv.destName, hnds2, hdl2, hdm2,
                hmk_unmov.trans (hd_unmov.trans hInv.unmovEq),
                hmk_undel.trans (hd_undel.trans hInv.undelEq),
                hmk_mtime.trans (hd_mtime.trans hInv.mtimeEq),
                hmk_listdir.trans (hd_listdir.trans hInv.listdirEq),
                hmk_unread.trans (hd_unread.trans hInv.unreadEq), ?_, ?_⟩,
                Or.inl rfl, Nat.le_succ _, le_refl _⟩
              · intro op hop
                obtain ⟨c, hc0, hcc⟩ := hInv.contents op hop
                exact ⟨c, hc0, by rw [hmk_files, hlu1dest op hop]; exact hcc⟩
              · intro p hplen
                rw [hmk_files, hlu1s p hplen]
                exact hInv.shallowFrame p hplen
              · intro hf
                exact hInv.movedCount hf
              · intro hd; exact absurd hd hdry
              · intro hnrep p hpd
                rw [hmk_files]
                rcases hd_files with hf | ⟨hrepl, _⟩
                · rw [hf]
                  exact hInv.fullFrame hnrep p hpd
                · exact absurd hrepl hnrep
            · -- the move succeeded: a new operation record
              rename_i fs3 hmv
              obtain ⟨c, hlksp, hspnm⟩ := moveFile_ok_lookup fs2x _ fd fs3 hmv
              have hspfd : P.sourceDir ++ [n] ≠ fd := by
                intro hcc
                have := congrArg List.length hcc
                rw [hsrcLen] at this
                omega
              obtain ⟨hmvlk1, hmvlk2, hmvframe⟩ :=
                lookupFile_moveFile fs2x _ fd fs3 hmv hspfd
              obtain ⟨hmv_dirs, hmv_unread, hmv_undel, hmv_unmov,
                hmv_listdir, hmv_mtime⟩ := moveFile_fields fs2x _ fd fs3 hmv
              have hlkfs : lookupFile fs.files (P.sourceDir ++ [n]) = some c := by
                rw [hmk_files] at hlksp
                rw [hlu1s _ (le_of_eq hsrcLen)] at hlksp
                exact hlksp
              have hlkfs0 : lookupFile fs0.files (P.sourceDir ++ [n]) = some c := by
                have hsf := hInv.shallowFrame _ (le_of_eq hsrcLen)
                rw [if_neg hsp_not_src] at hsf
                rw [← hsf]
                exact hlkfs
              injection hstep with h1
              injection h1 with ha hbc
              injection hbc with hb hc
              subst ha; subst hb; subst hc
              refine ⟨⟨?_, ?_, ?_, ?_, ?_, ?_, ?_, ?_, ?_, ?_,
                hmv_unmov.trans (hmk_unmov.trans (hd_unmov.trans hInv.unmovEq)),
                hmv_undel.trans (hmk_undel.trans (hd_undel.trans hInv.undelEq)),
                hmv_mtime.trans (hmk_mtime.trans (hd_mtime.trans hInv.mtimeEq)),
                hmv_listdir.trans (hmk_listdir.trans (hd_listdir.trans hInv.listdirEq)),
                hmv_unread.trans (hmk_unread.trans (hd_unread.trans hInv.unreadEq)),
                ?_, ?_⟩,
                Or.inr ⟨_, rfl, rfl, rfl⟩, le_refl _, Nat.le_succ _⟩
              · -- destinations distinct
                rw [List.map_append]
                refine List.Nodup.append hInv.destNodup (by simp) ?_
                intro x hx hx2
                simp only [List.map_cons, List.map_nil, List.mem_singleton] at hx2
                rw [List.mem_map] at hx
                obtain ⟨op, hop, hopd⟩ := hx
                exact hfd_not_old op hop (hopd.trans hx2)
              · -- record shape
                intro op hop
                rw [List.mem_append] at hop
                rcases hop with hop | hop
                · exact hInv.opShape op hop
                · rw [List.mem_singleton] at hop
                  subst hop
                  refine ⟨rfl, ?_, hnh⟩
                  rw [hfdlen, hdplen]
              · -- filenames distinct
                rw [List.map_append]
                refine List.Nodup.append hInv.fnameNodup (by simp) ?_
                intro x hx hx2
                simp only [List.map_cons, List.map_nil, List.mem_singleton] at hx2
                subst hx2
                exact hn hx
              · -- contents preserved and the new record's content
                intro op hop
                rw [List.mem_append] at hop
                rcases hop with hop | hop
                · obtain ⟨c2, hc0, hcc⟩ := hInv.contents op hop
                  refine ⟨c2, hc0, ?_⟩
                  have hone : op.destination ≠ P.sourceDir ++ [n] := by
                    intro hcc2
                    have hlen1 := congrArg List.length hcc2
                    rw [hsrcLen] at hlen1
                    have hlen2 := (hInv.opShape op hop).2.1
                    rw [hlen1] at hlen2
                    by_cases hoD : P.organizeByDate = true
                    · rw [if_pos hoD] at hlen2; omega
                    · rw [if_neg hoD] at hlen2; omega
                  rw [hmvframe op.destination hone (hfd_not_old op hop),
                    hmk_files, hlu1dest op hop]
                  exact hcc
                · rw [List.mem_singleton] at hop
                  subst hop
                  exact ⟨c, hlkfs0, by rw [hmvlk1]; exact hlksp⟩
              · -- the shallow frame
                intro p hplen
                rw [List.map_append]
                by_cases hpsp : p = P.sourceDir ++ [n]
                · subst hpsp
                  rw [if_pos (by simp), hmvlk2]
                · have hpfd : p ≠ fd := by
                    intro hcc
                    rw [hcc] at hplen
                    omega
                  rw [hmvframe p hpsp hpfd, hmk_files, hlu1s p hplen]
                  have := hInv.shallowFrame p hplen
                  rw [this]
                  by_cases hpsrc : p ∈ ops.map OpRecord.source
                  · rw [if_pos hpsrc, if_pos (List.mem_append_left _ hpsrc)]
                  · rw [if_neg hpsrc, if_neg ?_]
                    intro hcc
                    rw [List.mem_append] at hcc
                    rcases hcc with hcc | hcc
                    · exact hpsrc hcc
                    · simp only [List.map_cons, List.map_nil,
                        List.mem_singleton] at hcc
                      exact hpsp hcc
              · -- moved counter
                intro _
                rw [List.length_append]
                simp only [List.length_cons, List.length_nil]
                rw [hInv.movedCount hdryf]
              · -- destination names under non-rename policies
                intro hnr op hop
                rw [List.mem_append] at hop
                rcases hop with hop | hop
                · exact hInv.destName hnr op hop
                · rw [List.mem_singleton] at hop
                  subst hop
                  simp only
                  rw [hd_fdrep hnr]
                  exact hdpLast
              · -- newly created directories at depth one
                intro q hqlen hq
                rw [hmv_dirs] at hq
                have := hnds2 q hqlen hq
                rcases this with h | h | h
                · exact Or.inl h
                · exact Or.inr (Or.inl h)
                · refine Or.inr (Or.inr ?_)
                  rw [List.map_append]
                  exact List.mem_append_left _ h
              · -- directory depth bound
                intro q hq
                rw [hmv_dirs] at hq
                exact hdl2 q hq
              · -- directories monotone
                intro q hq
                rw [hmv_dirs]
                exact hdm2 hq
              · -- dry-run has no records
                intro hd; exact absurd hd hdry
              · -- the full frame away from destinations
                intro hnrep p hpd
                rw [List.map_append] at hpd
                have hpd1 : p ∉ ops.map OpRecord.destination :=
                  fun hcc => hpd (List.mem_append_left _ hcc)
                have hpfd : p ≠ fd := by
                  intro hcc
                  exact hpd (List.mem_append_right _ (by simp [hcc]))
                rw [List.map_append]
                by_cases hpsp : p = P.sourceDir ++ [n]
                · subst hpsp
                  rw [if_pos (by simp), hmvlk2]
                · rw [hmvframe p hpsp hpfd, hmk_files]
                  rcases hd_files with hf | ⟨hrepl, _⟩
                  · rw [hf]
                    have := hInv.fullFrame hnrep p hpd1
                    rw [this]
                    by_cases hpsrc : p ∈ ops.map OpRecord.source
                    · rw [if_pos hpsrc, if_pos (List.mem_append_left _ hpsrc)]
                    · rw [if_neg hpsrc, if_neg ?_]
                      intro hcc
                      rw [List.mem_append] at hcc
                      rcases hcc with hcc | hcc
                      · exact hpsrc hcc
                      · simp only [List.map_cons, List.map_nil,
                          List.mem_singleton] at hcc
                        exact hpsp hcc
                  · exact absurd hrepl hnrep

theorem passFold_preserves (P : SortParams) (fs0 : FS) :
    ∀ (items : List String) (stats : SortStats) (fs : FS) (ops : List OpRecord)
      (res : SortStats × FS × List OpRecord),
      PassInv P fs0 fs stats ops →
      (∀ op ∈ ops, op.filename ∉ items) →
      items.Nodup →
      passFold P (stats, fs, ops) items = .ok res →
      PassInv P fs0 res.2.1 res.1 res.2.2 ∧
      (∃ newOps, res.2.2 = ops ++ newOps ∧
        ∀ op ∈ newOps, op.filename ∈ items) ∧
      stats.errors ≤ res.1.errors := by
  intro items
  induction items with
  | nil =>
    intro stats fs ops res hInv _ _ hfold
    unfold passFold at hfold
    injection hfold with h1
    subst h1
    exact ⟨hInv, ⟨[], by simp, by simp⟩, le_refl _⟩
  | cons n rest ih =>
    intro stats fs ops res hInv hdisj hnd hfold
    unfold passFold at hfold
    cases hpe : processEntry P (stats, fs, ops) n with
    | error e => rw [hpe] at hfold; cases hfold
    | ok acc1 =>
      rw [hpe] at hfold
      obtain ⟨stats1, fs1, ops1⟩ := acc1
      have hn : n ∉ ops.map OpRecord.filename := by
        rw [List.mem_map]
        rintro ⟨op, hop, hopf⟩
        exact hdisj op hop (by rw [hopf]; exact List.mem_cons_self n rest)
      obtain ⟨hInv1, hops1, herr1, _⟩ :=
        processEntry_preserves P fs0 fs stats ops n hInv hn stats1 fs1 ops1 hpe
      rw [List.nodup_cons] at hnd
      have hdisj1 : ∀ op ∈ ops1, op.filename ∉ rest := by
        intro op hop
        rcases hops1 with hsame | ⟨newOp, hnew, hfn, _⟩
        · subst hsame
          exact fun hc => hdisj op hop (List.mem_cons_of_mem n hc)
        · subst hnew
          rw [List.mem_append] at hop
          rcases hop with hop | hop
          · exact fun hc => hdisj op hop (List.mem_cons_of_mem n hc)
          · rw [List.mem_singleton] at hop
            subst hop
            rw [hfn]
            exact hnd.1
      obtain ⟨hInvR, ⟨newOps, hnewOps, hnewIn⟩, herrR⟩ :=
        ih stats1 fs1 ops1 res hInv1 hdisj1 hnd.2 hfold
      refine ⟨hInvR, ?_, le_trans herr1 herrR⟩
      rcases hops1 with hsame | ⟨newOp, hnew, hfn, _⟩
      · subst hsame
        exact ⟨newOps, hnewOps, fun op hop =>
          List.mem_cons_of_mem n (hnewIn op hop)⟩
      · subst hnew
        refine ⟨newOp :: newOps, by rw [hnewOps, List.append_assoc]; rfl, ?_⟩
        intro op hop
        rcases List.mem_cons.1 hop with hop1 | hop2
        · rw [hop1, hfn]; exact List.mem_cons_self n rest
        · exact List.mem_cons_of_mem n (hnewIn op hop2)

theorem ensure_dirs_step (sourceDir : AbsPath) (fs : FS) (kv : String × List String) :
    let f := fun (acc : FS) (kv : String × List String) =>
      let p := sourceDir ++ [kv.1]
      if pathExists acc p then acc else { acc with dirs := acc.dirs ++ [p] }
    (f fs kv).files = fs.files ∧ (f fs kv).unmovable = fs.unmovable ∧
    (f fs kv).undeletable = fs.undeletable ∧ (f fs kv).mtimeMonth = fs.mtimeMonth ∧
    (f fs kv).listdirError = fs.listdirError ∧ (f fs kv).unreadable = fs.unreadable ∧
    (fs.WF → (f fs kv).WF) := by
  intro f
  show (f fs kv).files = fs.files ∧ _
  by_cases hex : pathExists fs (sourceDir ++ [kv.1]) = true
  · have : f fs kv = fs := by simp only [f, if_pos hex]
    rw [this]
    exact ⟨rfl, rfl, rfl, rfl, rfl, rfl, id⟩
  · have hexf : ¬ (pathExists fs (sourceDir ++ [kv.1]) = true) := hex
    have hval : f fs kv = { fs with dirs := fs.dirs ++ [sourceDir ++ [kv.1]] } := by
      simp only [f, if_neg hexf]
    rw [hval]
    refine ⟨rfl, rfl, rfl, rfl, rfl, rfl, ?_⟩
    intro ⟨h1, h2, h3⟩
    have hnb : pathExists fs (sourceDir ++ [kv.1]) = false := by
      cases hpe : pathExists fs (sourceDir ++ [kv.1])
      · rfl
      · exact absurd hpe hex
    obtain ⟨hlk, hnd⟩ := (pathExists_eq_false_iff fs _).1 hnb
    refine ⟨h1, ?_, ?_⟩
    · refine List.Nodup.append h2 (by simp) ?_
      intro x hx hx2
      rw [List.mem_singleton] at hx2
      exact hnd (hx2 ▸ hx)
    · intro p hp
      rw [List.mem_append, List.mem_singleton]
      rintro (hc | hc)
      · exact h3 p hp hc
      · rw [hc] at hp
        rw [← lookupFile_isSome_iff_mem] at hp
        rw [hlk] at hp
        simp at hp

theorem ensure_dirs_facts (cfg : Config) (cs : Bool) (sourceDir : AbsPath) (fs : FS) :
    (ensure_directories_exist cfg cs sourceDir fs).files = fs.files ∧
    (ensure_directories_exist cfg cs sourceDir fs).unmovable = fs.unmovable ∧
    (ensure_directories_exist cfg cs sourceDir fs).undeletable = fs.undeletable ∧
    (ensure_directories_exist cfg cs sourceDir fs).mtimeMonth = fs.mtimeMonth ∧
    (ensure_directories_exist cfg cs sourceDir fs).listdirError = fs.listdirError ∧
    (ensure_directories_exist cfg cs sourceDir fs).unreadable = fs.unreadable ∧
    (fs.WF → (ensure_directories_exist cfg cs sourceDir fs).WF) := by
  unfold ensure_directories_exist
  cases cs with
  | false => simp
  | true =>
    simp only [if_pos rfl]
    generalize cfg.categories = l
    induction l generalizing fs with
    | nil => exact ⟨rfl, rfl, rfl, rfl, rfl, rfl, id⟩
    | cons kv rest ihl =>
      rw [List.foldl_cons]
      obtain ⟨s1, s2, s3, s4, s5, s6, s7⟩ := ensure_dirs_step sourceDir fs kv
      obtain ⟨t1, t2, t3, t4, t5, t6, t7⟩ := ihl _
      exact ⟨t1.trans s1, t2.trans s2, t3.trans s3, t4.trans s4, t5.trans s5,
        t6.trans s6, fun h => t7 (s7 h)⟩

theorem sort_files_inv (P : SortParams) (createSubdirs : Bool) (st : SorterState)
    (stats : SortStats) (st2 : SorterState)
    (hwf : st.fs.WF)
    (hok : sort_files P createSubdirs st = .ok (stats, st2)) :
    ∃ ops,
      PassInv P (ensure_directories_exist P.cfg createSubdirs P.sourceDir st.fs)
        st2.fs stats ops ∧
      (P.dryRun = false → st2.history = st.history ++ ops) := by
  unfold sort_files at hok
  set fs0 := ensure_directories_exist P.cfg createSubdirs P.sourceDir st.fs with hfs0
  by_cases hld : fs0.listdirError = true
  · rw [if_pos hld] at hok
    injection hok with h1
    injection h1 with ha hb
    refine ⟨[], ?_, ?_⟩
    · rw [← hb, ← ha]
      exact PassInv.start P fs0
    · intro _; rw [← hb]; simp
  · rw [if_neg hld] at hok
    cases hfold : passFold P (⟨0, 0, 0⟩, fs0, []) (listdirNames fs0 P.sourceDir) with
    | error e => rw [hfold] at hok; cases hok
    | ok res =>
      rw [hfold] at hok
      obtain ⟨statsR, fsR, opsR⟩ := res
      have hwf0 : fs0.WF := (ensure_dirs_facts P.cfg createSubdirs P.sourceDir st.fs).2.2.2.2.2.2 hwf
      obtain ⟨hInvR, ⟨newOps, hnewOps, _⟩, _⟩ :=
        passFold_preserves P fs0 (listdirNames fs0 P.sourceDir) ⟨0, 0, 0⟩ fs0 []
          (statsR, fsR, opsR) (PassInv.start P fs0) (by simp)
          (listdirNames_nodup fs0 P.sourceDir hwf0) hfold
      injection hok with h1
      injection h1 with ha hb
      refine ⟨opsR, ?_, ?_⟩
      · rw [← hb, ← ha]
        exact hInvR
      · intro hdry
        rw [← hb]
        by_cases hemp : opsR.isEmpty = true
        · rw [List.isEmpty_iff] at hemp
          simp [hemp, hdry]
        · have : (opsR.isEmpty || P.dryRun) = false := by
            rw [Bool.or_eq_false_iff]
            constructor
            · cases hEE : opsR.isEmpty
              · rfl
              · exact absurd hEE hemp
            · exact hdry
          simp only [this, Bool.false_eq_true, if_false]

theorem PassInv.srcsNodup {P : SortParams} {fs0 fs : FS} {stats : SortStats}
    {ops : List OpRecord} (h : PassInv P fs0 fs stats ops) :
    (ops.map OpRecord.source).Nodup := by
  have hmapeq : ops.map OpRecord.source =
      ops.map (fun op => P.sourceDir ++ [op.filename]) :=
    List.map_congr_left (fun op hop => (h.opShape op hop).1)
  rw [hmapeq]
  have hcomp : ops.map (fun op => P.sourceDir ++ [op.filename]) =
      (ops.map OpRecord.filename).map (fun f => P.sourceDir ++ [f]) := by
    rw [List.map_map]
    rfl
  rw [hcomp]
  exact List.Nodup.map (fun a b hab => append_singleton_inj hab) h.fnameNodup

theorem PassInv.destNeSource {P : SortParams} {fs0 fs : FS} {stats : SortStats}
    {ops : List OpRecord} (h : PassInv P fs0 fs stats ops) :
    ∀ op1 ∈ ops, ∀ op2 ∈ ops, op1.destination ≠ op2.source := by
  intro op1 h1 op2 h2 hc
  have e1 := (h.opShape op1 h1).2.1
  have e2 := (h.opShape op2 h2).1
  have hlen2 : op2.source.length = P.sourceDir.length + 1 := by rw [e2]; simp
  rw [hc, hlen2] at e1
  by_cases hoD : P.organizeByDate = true
  · rw [if_pos hoD] at e1; omega
  · rw [if_neg hoD] at e1; omega

/-- C1: a non-dry-run `sort_files` pass in which every move succeeds
(`errors` aside, no move can fail: `unmovable` is empty) followed by
`undo_last_operation` with `count` equal to the returned `moved` count
restores every moved file to its exact original path with its original
content, reports exactly `moved` restored files, and shrinks the Operation
Log back to its pre-pass state (the length decreases by exactly `moved`). -/
theorem c1_sort_then_undo_round_trip (P : SortParams) (createSubdirs : Bool)
    (st : SorterState) (stats : SortStats) (st2 : SorterState)
    (hwf : st.fs.WF) (hdry : P.dryRun = false) (hmov : st.fs.unmovable = [])
    (hok : sort_files P createSubdirs st = .ok (stats, st2)) :
    ∃ ops : List OpRecord,
      st2.history = st.history ++ ops ∧ ops.length = stats.moved ∧
      (undo_last_operation stats.moved st2).1 = stats.moved ∧
      (undo_last_operation stats.moved st2).2.history = st.history ∧
      ∀ op ∈ ops,
        (lookupFile st.fs.files op.source).isSome ∧
        lookupFile (undo_last_operation stats.moved st2).2.fs.files op.source =
          lookupFile st.fs.files op.source := by
  obtain ⟨ops, hInv, hhist0⟩ := sort_files_inv P createSubdirs st stats st2 hwf hok
  have hhist := hhist0 hdry
  obtain ⟨hfile0, hunm0, _, _, _, _, _⟩ :=
    ensure_dirs_facts P.cfg createSubdirs P.sourceDir st.fs
  have hlen : stats.moved = ops.length := hInv.movedCount hdry
  have hsomeD : ∀ op ∈ ops, (lookupFile st2.fs.files op.destination).isSome := by
    intro op hop
    obtain ⟨c, _, hc2⟩ := hInv.contents op hop
    rw [hc2]; rfl
  have hunmov : ∀ op ∈ ops, op.destination ∉ st2.fs.unmovable := by
    intro op hop
    rw [hInv.unmovEq, hunm0, hmov]
    exact List.not_mem_nil _
  obtain ⟨hr1, hr2, hr3, _⟩ := undoLoop_restores ops st2.fs st.history hsomeD hunmov
    hInv.destNodup hInv.srcsNodup hInv.destNeSource
  have hundoeq : undo_last_operation stats.moved st2 =
      ((undoLoop ops.length st2.fs (st.history ++ ops)).2.2,
       ⟨(undoLoop ops.length st2.fs (st.history ++ ops)).1,
        (undoLoop ops.length st2.fs (st.history ++ ops)).2.1⟩) := by
    unfold undo_last_operation
    rw [hhist, hlen]
    have hmin : min ops.length (st.history ++ ops).length = ops.length := by
      rw [List.length_append]
      omega
    rw [hmin]
  refine ⟨ops, hhist, hlen.symm, ?_, ?_, ?_⟩
  · rw [hundoeq]
    rw [hr2, hlen]
  · rw [hundoeq]
    exact hr1
  · intro op hop
    obtain ⟨c, hc0, hc2⟩ := hInv.contents op hop
    rw [hfile0] at hc0
    constructor
    · rw [hc0]; rfl
    · rw [hundoeq]
      have := hr3 op hop
      simp only at this
      rw [this, hc2, hc0]

/-- A one-file source directory for exercising the round trip. -/
def c1fs : FS :=
  { files := [(["s", "v.mp4"], "A")]
    dirs := [["s"]]
    unreadable := []
    undeletable := []
    unmovable := []
    listdirError := false
    mtimeMonth := fun _ => "2024-01" }

/-- Default-configuration parameters for a real (non-dry-run) pass. -/
def c1P : SortParams :=
  { cfg := ⟨DEFAULT_CATEGORIES⟩, sourceDir := ["s"]
    histName := "file_sorter_history.json"
    dryRun := false, strategy := "rename", organizeByDate := false }

/-- The engine state after sorting `c1fs`: the file landed in `Videos` and
one operation was recorded. -/
def c1st2 : SorterState :=
  ⟨{ c1fs with
      files := [(["s", "Videos", "v.mp4"], "A")]
      dirs := [["s"], ["s", "Videos"], ["s", "Pictures"], ["s", "Music"],
        ["s", "Documents"], ["s", "Archives"], ["s", "Code"],
        ["s", "Executables"], ["s", "Spreadsheets"]] },
   [{ source := ["s", "v.mp4"], destination := ["s", "Videos", "v.mp4"],
      filename := "v.mp4", category := "Videos" }]⟩

theorem c1fs_wf : c1fs.WF := by
  refine ⟨?_, ?_, ?_⟩ <;> decide

/-- Witness: the round-trip theorem applied to the concrete one-file
directory `c1fs`. -/
theorem c1_sort_then_undo_round_trip_witness :
    (SorterState.mk c1fs []).fs.WF ∧ c1P.dryRun = false ∧
    (SorterState.mk c1fs []).fs.unmovable = [] ∧
    sort_files c1P true ⟨c1fs, []⟩ = .ok (⟨1, 0, 0⟩, c1st2) ∧
    (∃ ops : List OpRecord,
      c1st2.history = (SorterState.mk c1fs []).history ++ ops ∧
      ops.length = 1 ∧
      (undo_last_operation 1 c1st2).1 = 1 ∧
      (undo_last_operation 1 c1st2).2.history = (SorterState.mk c1fs []).history ∧
      ∀ op ∈ ops,
        (lookupFile (SorterState.mk c1fs []).fs.files op.source).isSome ∧
        lookupFile (undo_last_operation 1 c1st2).2.fs.files op.source =
          lookupFile (SorterState.mk c1fs []).fs.files op.source) :=
  ⟨c1fs_wf, rfl, rfl, rfl,
    c1_sort_then_undo_round_trip c1P true ⟨c1fs, []⟩ ⟨1, 0, 0⟩ c1st2
      c1fs_wf rfl rfl rfl⟩

/-- C3 (amended): under policy `replace` the resolver deletes the existing
file at the candidate destination and returns the same path, but when the
deletion raises `IOError` the exception propagates out of `_handle_duplicate`
uncaught: the entry loop has no handler around the resolver call, so the
whole `sort_files` pass aborts with the exception instead of counting a
per-file error and moving on. -/
theorem c3_replace_deletion_failure_aborts_pass (fs : FS)
    (source destination : AbsPath) :
    (pathExists fs destination = true → destination ∉ fs.undeletable →
      destination ∉ fs.dirs →
      handle_duplicate fs source destination "replace" =
        .ok ({ fs with files := removeFiles fs.files destination },
          some destination)) ∧
    (pathExists fs destination = true →
      destination ∈ fs.undeletable ∨ destination ∈ fs.dirs →
      handle_duplicate fs source destination "replace" = .error ()) ∧
    (∀ (Q : SortParams) (acc : SortStats × FS × List OpRecord) (n : String)
      (rest : List String), processEntry Q acc n = .error () →
      passFold Q acc (n :: rest) = .error ()) ∧
    (∀ (Q : SortParams) (cs : Bool) (st : SorterState),
      (ensure_directories_exist Q.cfg cs Q.sourceDir st.fs).listdirError = false →
      passFold Q (⟨0, 0, 0⟩, ensure_directories_exist Q.cfg cs Q.sourceDir st.fs, [])
        (listdirNames (ensure_directories_exist Q.cfg cs Q.sourceDir st.fs)
          Q.sourceDir) = .error () →
      sort_files Q cs st = .error ()) := by
  refine ⟨?_, ?_, ?_, ?_⟩
  · intro hex hdel hdir
    exact handle_duplicate_replace_ok fs source destination hex hdel hdir
  · intro hex hfail
    exact handle_duplicate_replace_error fs source destination hex hfail
  · intro Q acc n rest hpe
    unfold passFold
    rw [hpe]
  · intro Q cs st hld hfold
    unfold sort_files
    have hldn : ¬ ((ensure_directories_exist Q.cfg cs Q.sourceDir st.fs).listdirError
        = true) := by
      rw [hld]; exact Bool.false_ne_true
    rw [if_neg hldn, hfold]

/-- A replace-collision state whose pre-existing destination file the
environment refuses to delete. -/
def c3fs : FS :=
  { files := [(["s", "a.mp4"], "A"), (["s", "Videos", "a.mp4"], "B")]
    dirs := [["s"], ["s", "Videos"], ["s", "Pictures"], ["s", "Music"],
      ["s", "Documents"], ["s", "Archives"], ["s", "Code"],
      ["s", "Executables"], ["s", "Spreadsheets"]]
    unreadable := []
    undeletable := [["s", "Videos", "a.mp4"]]
    unmovable := []
    listdirError := false
    mtimeMonth := fun _ => "2024-01" }

/-- Parameters of a real pass with the `replace` collision policy. -/
def c3P : SortParams :=
  { cfg := ⟨DEFAULT_CATEGORIES⟩, sourceDir := ["s"]
    histName := "file_sorter_history.json"
    dryRun := false, strategy := "replace", organizeByDate := false }

/-- C3 is false as stated: on `c3fs` the failing `os.remove` of the `replace`
policy is not absorbed as a per-file error — the whole `sort_files` batch
aborts with the uncaught exception and returns no statistics at all. -/
theorem c3_counterexample : sort_files c3P true ⟨c3fs, []⟩ = .error () := rfl

/-- Witness: the amended C3 behaviour on concrete states — a deletable
collision resolves to the same path with the file removed, an undeletable
one raises, the exception ends the entry loop, and `sort_files` on `c3fs`
aborts. -/
theorem c3_replace_witness :
    pathExists c3fs ["s", "Videos", "a.mp4"] = true ∧
    (["s", "Videos", "a.mp4"] ∈ c3fs.undeletable ∨
      ["s", "Videos", "a.mp4"] ∈ c3fs.dirs) ∧
    handle_duplicate c3fs ["s", "a.mp4"] ["s", "Videos", "a.mp4"] "replace" =
      .error () := by
  refine ⟨by decide, by decide, ?_⟩
  exact (c3_replace_deletion_failure_aborts_pass c3fs ["s", "a.mp4"]
    ["s", "Videos", "a.mp4"]).2.1 (by decide) (by decide)

/-- C4: under policy `rename`, when the candidate destination exists, the
resolver leaves the filesystem untouched and returns the first path of the
probe sequence `base_1.ext`, `base_2.ext`, … at which nothing exists — so
the returned path did not exist before the call and nothing is
overwritten. -/
theorem c4_rename_returns_first_free_probe (fs : FS)
    (source destination : AbsPath)
    (hex : pathExists fs destination = true) :
    handle_duplicate fs source destination "rename" =
      .ok (fs, some (renameDest fs destination)) ∧
    ∃ i, 1 ≤ i ∧ renameDest fs destination = renameCandidate destination i ∧
      pathExists fs (renameCandidate destination i) = false ∧
      ∀ j, 1 ≤ j → j < i → pathExists fs (renameCandidate destination j) = true :=
  ⟨handle_duplicate_rename fs source destination hex, renameDest_spec fs destination⟩

/-- A rename-collision state: both `a.mp4` and `a_1.mp4` already sit in
`Videos`, so the probe sequence must reach `a_2.mp4`. -/
def c4fs : FS :=
  { files := [(["s", "a.mp4"], "X"), (["s", "Videos", "a.mp4"], "B"),
      (["s", "Videos", "a_1.mp4"], "C")]
    dirs := [["s"], ["s", "Videos"]]
    unreadable := []
    undeletable := []
    unmovable := []
    listdirError := false
    mtimeMonth := fun _ => "2024-01" }

/-- Witness: C4 on `c4fs` — the probe skips the occupied `a_1.mp4` and
returns the free `a_2.mp4`. -/
theorem c4_rename_witness :
    pathExists c4fs ["s", "Videos", "a.mp4"] = true ∧
    renameDest c4fs ["s", "Videos", "a.mp4"] = ["s", "Videos", "a_2.mp4"] ∧
    (handle_duplicate c4fs ["s", "a.mp4"] ["s", "Videos", "a.mp4"] "rename" =
      .ok (c4fs, some (renameDest c4fs ["s", "Videos", "a.mp4"])) ∧
    ∃ i, 1 ≤ i ∧
      renameDest c4fs ["s", "Videos", "a.mp4"] =
        renameCandidate ["s", "Videos", "a.mp4"] i ∧
      pathExists c4fs (renameCandidate ["s", "Videos", "a.mp4"] i) = false ∧
      ∀ j, 1 ≤ j → j < i →
        pathExists c4fs (renameCandidate ["s", "Videos", "a.mp4"] j) = true) :=
  ⟨by decide, rfl,
    c4_rename_returns_first_free_probe c4fs ["s", "a.mp4"]
      ["s", "Videos", "a.mp4"] (by decide)⟩

/-- C5 is false as stated: extension matching is not case-insensitive in the
configured extension.  With a category configured as `[".MP4"]`, the input
`".MP4"` — written in exactly the case in which it was configured — matches
nothing, because only the input is lower-cased before the verbatim list
membership test. -/
theorem c5_counterexample :
    get_category_for_extension ⟨[("X", [".MP4"])]⟩ ".MP4" = none ∧
    ".MP4" ∈ [".MP4"] := ⟨rfl, by decide⟩

/-- C5 (amended): `get_category_for_extension` lower-cases only its input:
two inputs with the same lower-casing always resolve alike, an input matches
exactly the categories listing its lower-cased form verbatim, and the empty
extension matches no category provided no category lists the empty string
(as in the default configuration). -/
theorem c5_lowercases_input_only (c : Config) (a b : String)
    (hab : strLower a = strLower b)
    (hnoempty : ∀ kv ∈ c.categories, "" ∉ kv.2) :
    get_category_for_extension c a = get_category_for_extension c b ∧
    (∀ cat, get_category_for_extension c a = some cat →
      ∃ exts, (cat, exts) ∈ c.categories ∧ strLower a ∈ exts) ∧
    get_category_for_extension c "" = none := by
  refine ⟨get_category_lower_input c a b hab,
    fun cat h => get_category_mem c a cat h, ?_⟩
  apply get_category_none_of_not_listed
  intro kv hkv
  have hsl : strLower "" = "" := rfl
  rw [hsl]
  exact hnoempty kv hkv

/-- Witness: the amended C5 on the default category map with `".MP4"` and
`".mp4"`. -/
theorem c5_lowercases_input_only_witness :
    strLower ".MP4" = strLower ".mp4" ∧
    (∀ kv ∈ (Config.mk DEFAULT_CATEGORIES).categories, "" ∉ kv.2) ∧
    (get_category_for_extension ⟨DEFAULT_CATEGORIES⟩ ".MP4" =
      get_category_for_extension ⟨DEFAULT_CATEGORIES⟩ ".mp4" ∧
    (∀ cat, get_category_for_extension ⟨DEFAULT_CATEGORIES⟩ ".MP4" = some cat →
      ∃ exts, (cat, exts) ∈ (Config.mk DEFAULT_CATEGORIES).categories ∧
        strLower ".MP4" ∈ exts) ∧
    get_category_for_extension ⟨DEFAULT_CATEGORIES⟩ "" = none) :=
  ⟨rfl, by decide,
    c5_lowercases_input_only ⟨DEFAULT_CATEGORIES⟩ ".MP4" ".mp4" rfl (by decide)⟩

/-- C6: when directory enumeration fails, the pass aborts right after the
(unconditional) directory-creation step and returns the zero statistics
dictionary, with the regular files and the Operation Log untouched. -/
theorem c6_listdir_failure_returns_zero_stats (P : SortParams)
    (createSubdirs : Bool) (st : SorterState)
    (hld : st.fs.listdirError = true) :
    sort_files P createSubdirs st =
      .ok (⟨0, 0, 0⟩,
        ⟨ensure_directories_exist P.cfg createSubdirs P.sourceDir st.fs,
         st.history⟩) ∧
    (ensure_directories_exist P.cfg createSubdirs P.sourceDir st.fs).files =
      st.fs.files := by
  have hfacts := ensure_dirs_facts P.cfg createSubdirs P.sourceDir st.fs
  constructor
  · unfold sort_files
    rw [if_pos (hfacts.2.2.2.2.1.trans hld)]
  · exact hfacts.1

/-- A directory whose enumeration the environment makes fail. -/
def c6fs : FS :=
  { files := [(["s", "v.mp4"], "A")]
    dirs := [["s"]]
    unreadable := []
    undeletable := []
    unmovable := []
    listdirError := true
    mtimeMonth := fun _ => "2024-01" }

/-- Parameters of a real default-configuration pass for `c6fs`. -/
def c6P : SortParams :=
  { cfg := ⟨DEFAULT_CATEGORIES⟩, sourceDir := ["s"]
    histName := "file_sorter_history.json"
    dryRun := false, strategy := "rename", organizeByDate := false }

/-- Witness: C6 on `c6fs` — zero statistics, file still in place, log
unchanged. -/
theorem c6_listdir_failure_witness :
    c6fs.listdirError = true ∧
    (sort_files c6P true ⟨c6fs, []⟩ =
      .ok (⟨0, 0, 0⟩,
        ⟨ensure_directories_exist c6P.cfg true c6P.sourceDir c6fs, []⟩) ∧
    (ensure_directories_exist c6P.cfg true c6P.sourceDir c6fs).files =
      c6fs.files) :=
  ⟨rfl, c6_listdir_failure_returns_zero_stats c6P true ⟨c6fs, []⟩ rfl⟩

/-- C7: `undo_last_operation` always pops exactly `min count (log length)`
records from the tail of the log (the remaining log is the untouched
prefix), and when `count` is at least the log length and every recorded
destination still holds a movable file at a distinct path, it restores
exactly the former log length of files — each destination moved back to its
recorded source — and empties the log. -/
theorem c7_undo_pops_min_of_count_and_length (count : Nat) (st : SorterState)
    (hge : st.history.length ≤ count)
    (hsome : ∀ op ∈ st.history, (lookupFile st.fs.files op.destination).isSome)
    (hmov : ∀ op ∈ st.history, op.destination ∉ st.fs.unmovable)
    (hndd : (st.history.map OpRecord.destination).Nodup)
    (hnds : (st.history.map OpRecord.source).Nodup)
    (hcross : ∀ op1 ∈ st.history, ∀ op2 ∈ st.history,
      op1.destination ≠ op2.source) :
    (∀ (count2 : Nat) (st3 : SorterState),
      (undo_last_operation count2 st3).2.history =
        st3.history.take (st3.history.length - min count2 st3.history.length)) ∧
    (undo_last_operation count st).1 = st.history.length ∧
    (undo_last_operation count st).2.history = [] ∧
    ∀ op ∈ st.history,
      lookupFile (undo_last_operation count st).2.fs.files op.source =
        lookupFile st.fs.files op.destination := by
  obtain ⟨hr1, hr2, hr3, _⟩ := undoLoop_restores st.history st.fs [] hsome hmov
    hndd hnds hcross
  have hmin : min count st.history.length = st.history.length :=
    Nat.min_eq_right hge
  have hnil : ([] : List OpRecord) ++ st.history = st.history := by simp
  rw [hnil] at hr1 hr2 hr3
  have hundoeq : undo_last_operation count st =
      ((undoLoop st.history.length st.fs st.history).2.2,
       ⟨(undoLoop st.history.length st.fs st.history).1,
        (undoLoop st.history.length st.fs st.history).2.1⟩) := by
    unfold undo_last_operation
    rw [hmin]
  refine ⟨?_, ?_, ?_, ?_⟩
  · intro count2 st3
    show (undoLoop (min count2 st3.history.length) st3.fs st3.history).2.1 = _
    exact undoLoop_history _ _ _
  · rw [hundoeq]; exact hr2
  · rw [hundoeq]; exact hr1
  · intro op hop
    rw [hundoeq]
    exact hr3 op hop

/-- Two logged moves whose destination files are both present and
restorable. -/
def c7st : SorterState :=
  ⟨{ files := [(["s", "Videos", "a.mp4"], "A"), (["s", "Music", "b.mp3"], "B")]
     dirs := [["s"], ["s", "Videos"], ["s", "Music"]]
     unreadable := []
     undeletable := []
     unmovable := []
     listdirError := false
     mtimeMonth := fun _ => "2024-01" },
   [{ source := ["s", "a.mp4"], destination := ["s", "Videos", "a.mp4"],
      filename := "a.mp4", category := "Videos" },
    { source := ["s", "b.mp3"], destination := ["s", "Music", "b.mp3"],
      filename := "b.mp3", category := "Music" }]⟩

/-- Witness: C7 with `count = 5` against the two-record log of `c7st` —
exactly two files are restored, not five. -/
theorem c7_undo_witness :
    c7st.history.length ≤ 5 ∧
    ((∀ (count2 : Nat) (st3 : SorterState),
      (undo_last_operation count2 st3).2.history =
        st3.history.take (st3.history.length - min count2 st3.history.length)) ∧
    (undo_last_operation 5 c7st).1 = c7st.history.length ∧
    (undo_last_operation 5 c7st).2.history = [] ∧
    ∀ op ∈ c7st.history,
      lookupFile (undo_last_operation 5 c7st).2.fs.files op.source =
        lookupFile c7st.fs.files op.destination) :=
  ⟨by decide,
    c7_undo_pops_min_of_count_and_length 5 c7st (by decide) (by decide)
      (by decide) (by decide) (by decide) (by decide)⟩

/-- C9: a directory entry named like the base name of the configured history
file is skipped before any classification: processing it returns the
accumulator unchanged (no statistics bucket is touched), and after any
whole `sort_files` pass the file at `source/basename(history_file)` is
exactly what it was before — whether or not the history file itself lives in
the source directory, since only the base name is compared. -/
theorem c9_history_basename_entry_skipped (P : SortParams) :
    (∀ acc : SortStats × FS × List OpRecord,
      processEntry P acc P.histName = .ok acc) ∧
    (∀ (createSubdirs : Bool) (st : SorterState) (stats : SortStats)
      (st2 : SorterState), st.fs.WF →
      sort_files P createSubdirs st = .ok (stats, st2) →
      lookupFile st2.fs.files (P.sourceDir ++ [P.histName]) =
        lookupFile st.fs.files (P.sourceDir ++ [P.histName])) := by
  constructor
  · intro acc
    unfold processEntry
    have hb : (isDir acc.2.1 (P.sourceDir ++ [P.histName]) ||
        decide (P.histName = P.histName)) = true := by simp
    rw [if_pos hb]
  · intro createSubdirs st stats st2 hwf hok
    obtain ⟨ops, hInv, _⟩ := sort_files_inv P createSubdirs st stats st2 hwf hok
    have hlen : (P.sourceDir ++ [P.histName]).length = P.sourceDir.length + 1 := by
      simp
    have hsf := hInv.shallowFrame _ (le_of_eq hlen)
    have hnotin : P.sourceDir ++ [P.histName] ∉ ops.map OpRecord.source := by
      rw [mem_srcs_iff_mem_fnames P _ st2.fs stats ops hInv]
      rw [List.mem_map]
      rintro ⟨op, hop, hopf⟩
      exact (hInv.opShape op hop).2.2 hopf
    rw [if_neg hnotin] at hsf
    rw [hsf,
      (ensure_dirs_facts P.cfg createSubdirs P.sourceDir st.fs).1]

/-- A source directory containing an unrelated regular file whose name
matches the history file's base name. -/
def c9fs : FS :=
  { files := [(["s", "file_sorter_history.json"], "H")]
    dirs := [["s"]]
    unreadable := []
    undeletable := []
    unmovable := []
    listdirError := false
    mtimeMonth := fun _ => "2024-01" }

/-- Parameters with the default history-file base name, the history file
itself living outside `["s"]`. -/
def c9P : SortParams :=
  { cfg := ⟨DEFAULT_CATEGORIES⟩, sourceDir := ["s"]
    histName := "file_sorter_history.json"
    dryRun := false, strategy := "rename", organizeByDate := false }

/-- The state after sorting `c9fs`: only category directories appeared; the
same-named file never moved and nothing was counted. -/
def c9st2 : SorterState :=
  ⟨{ c9fs with
      dirs := [["s"], ["s", "Videos"], ["s", "Pictures"], ["s", "Music"],
        ["s", "Documents"], ["s", "Archives"], ["s", "Code"],
        ["s", "Executables"], ["s", "Spreadsheets"]] },
   []⟩

/-- Witness: C9 on `c9fs` — the entry is skipped with the accumulator
unchanged and the file is still at its path with its content after a full
pass that moved nothing. -/
theorem c9_history_basename_witness :
    processEntry c9P (⟨0, 0, 0⟩, c9fs, []) c9P.histName =
      .ok (⟨0, 0, 0⟩, c9fs, []) ∧
    (SorterState.mk c9fs []).fs.WF ∧
    sort_files c9P true ⟨c9fs, []⟩ = .ok (⟨0, 0, 0⟩, c9st2) ∧
    lookupFile c9st2.fs.files (c9P.sourceDir ++ [c9P.histName]) =
      lookupFile (SorterState.mk c9fs []).fs.files
        (c9P.sourceDir ++ [c9P.histName]) :=
  ⟨(c9_history_basename_entry_skipped c9P).1 (⟨0, 0, 0⟩, c9fs, []),
    ⟨by decide, by decide, by decide⟩, rfl,
    (c9_history_basename_entry_skipped c9P).2 true ⟨c9fs, []⟩ ⟨0, 0, 0⟩ c9st2
      ⟨by decide, by decide, by decide⟩ rfl⟩

/-- C10: for a duplicate-strategy string other than `skip`, `rename` and
`replace`, a colliding candidate destination is returned unchanged — the
unknown policy falls through every branch of `_handle_duplicate`, so the
subsequent move in `sort_files` targets the already-occupied path. -/
theorem c10_unknown_strategy_returns_destination (fs : FS)
    (source destination : AbsPath) (strategy : String)
    (hex : pathExists fs destination = true)
    (h1 : strategy ≠ "skip") (h2 : strategy ≠ "replace")
    (h3 : strategy ≠ "rename") :
    handle_duplicate fs source destination strategy =
      .ok (fs, some destination) :=
  handle_duplicate_unknown fs source destination strategy hex h1 h2 h3

/-- A collision state for exercising an unknown duplicate strategy: the
destination `Videos/a.mp4` is already occupied. -/
def c10fs : FS :=
  { files := [(["s", "a.mp4"], "X"), (["s", "Videos", "a.mp4"], "B")]
    dirs := [["s"], ["s", "Videos"]]
    unreadable := []
    undeletable := []
    unmovable := []
    listdirError := false
    mtimeMonth := fun _ => "2024-01" }

/-- Witness: the `"overwrite"` strategy leaves the occupied destination as
the final target. -/
theorem c10_unknown_strategy_witness :
    pathExists c10fs ["s", "Videos", "a.mp4"] = true ∧
    handle_duplicate c10fs ["s", "a.mp4"] ["s", "Videos", "a.mp4"]
      "overwrite" = .ok (c10fs, some ["s", "Videos", "a.mp4"]) :=
  ⟨by decide,
    c10_unknown_strategy_returns_destination c10fs ["s", "a.mp4"]
      ["s", "Videos", "a.mp4"] "overwrite" (by decide) (by decide) (by decide)
      (by decide)⟩

theorem digestOf_ne_empty (c : String) : digestOf c ≠ "" := by
  intro h
  have hlen := congrArg String.length h
  rw [digestOf, String.length_append] at hlen
  have h1 : ("h" : String).length = 1 := rfl
  have h2 : ("" : String).length = 0 := rfl
  rw [h1, h2] at hlen
  omega

theorem digestOf_injective : Function.Injective digestOf := by
  intro a b h
  exact string_append_left_cancel h

theorem get_file_hash_eq_digest_iff (fs : FS) (p : AbsPath) (c : String) :
    (get_file_hash fs p = digestOf c) ↔
      (p ∉ fs.unreadable ∧ lookupFile fs.files p = some c) := by
  unfold get_file_hash
  by_cases hur : p ∈ fs.unreadable
  · rw [if_pos hur]
    constructor
    · intro h; exact absurd h.symm (digestOf_ne_empty c)
    · intro ⟨h1, _⟩; exact absurd hur h1
  · rw [if_neg hur]
    cases hl : lookupFile fs.files p with
    | none =>
      constructor
      · intro h; exact absurd h.symm (digestOf_ne_empty c)
      · intro ⟨_, h2⟩; cases h2
    | some c2 =>
      constructor
      · intro h
        exact ⟨hur, by rw [digestOf_injective h]⟩
      · intro ⟨_, h2⟩
        injection h2 with h3
        rw [h3]

theorem find_duplicates_mem_iff (fs : FS) (dir : AbsPath)
    (hld : fs.listdirError = false) (g : String × List AbsPath) :
    g ∈ find_duplicates fs dir ↔
      g.2 = groupPaths fs dir (listdirNames fs dir) g.1 ∧ 1 < g.2.length := by
  unfold find_duplicates
  have hldn : ¬ (fs.listdirError = true) := by rw [hld]; exact Bool.false_ne_true
  rw [if_neg hldn, List.mem_filter,
    mem_iff_lookupGroup _ (buildHashMap_keys_nodup fs dir _) g,
    buildHashMap_lookup]
  by_cases hgp : groupPaths fs dir (listdirNames fs dir) g.1 = []
  · rw [if_pos hgp]
    constructor
    · intro ⟨h1, _⟩; cases h1
    · intro ⟨h1, h2⟩
      rw [h1, hgp] at h2
      simp at h2
  · rw [if_neg hgp]
    constructor
    · intro ⟨h1, h2⟩
      injection h1 with h3
      exact ⟨h3.symm, of_decide_eq_true h2⟩
    · intro ⟨h1, h2⟩
      exact ⟨by rw [h1], decide_eq_true h2⟩

/-- C8: `find_duplicates` groups the non-directory entries of the source
directory by content digest and returns exactly the digest groups with more
than one member: each returned group is precisely the list of listed files
hashing to its digest, every digest whose group has at least two members is
returned, no returned path carries the empty read-failure sentinel (so
unreadable files appear in no group), and for any fixed content the group of
its digest is exactly the readable listed files with byte-identical content
— a set of N such files yields the one group of size N. -/
theorem c8_find_duplicates_exact_groups (fs : FS) (dir : AbsPath)
    (hld : fs.listdirError = false) :
    (∀ g ∈ find_duplicates fs dir, 1 < g.2.length) ∧
    (∀ g ∈ find_duplicates fs dir,
      g.2 = groupPaths fs dir (listdirNames fs dir) g.1) ∧
    (∀ hh : String, 1 < (groupPaths fs dir (listdirNames fs dir) hh).length →
      (hh, groupPaths fs dir (listdirNames fs dir) hh) ∈ find_duplicates fs dir) ∧
    (∀ g ∈ find_duplicates fs dir, ∀ p ∈ g.2, get_file_hash fs p ≠ "") ∧
    (∀ content : String,
      groupPaths fs dir (listdirNames fs dir) (digestOf content) =
        ((listdirNames fs dir).map (fun nm => dir ++ [nm])).filter
          (fun p => !(isDir fs p) && decide (p ∉ fs.unreadable) &&
            decide (lookupFile fs.files p = some content))) := by
  refine ⟨?_, ?_, ?_, ?_, ?_⟩
  · intro g hg
    exact ((find_duplicates_mem_iff fs dir hld g).1 hg).2
  · intro g hg
    exact ((find_duplicates_mem_iff fs dir hld g).1 hg).1
  · intro hh hlen
    rw [find_duplicates_mem_iff fs dir hld]
    exact ⟨rfl, hlen⟩
  · intro g hg p hp
    have hgp := ((find_duplicates_mem_iff fs dir hld g).1 hg).1
    rw [hgp] at hp
    unfold groupPaths at hp
    rw [List.mem_filter] at hp
    obtain ⟨_, hcond⟩ := hp
    rw [Bool.and_eq_true, Bool.and_eq_true] at hcond
    exact of_decide_eq_true hcond.1.2
  · intro content
    unfold groupPaths
    apply List.filter_congr
    intro p _
    by_cases hd : isDir fs p = true
    · simp [hd]
    · have hdf : isDir fs p = false := by
        cases hdd : isDir fs p
        · rfl
        · exact absurd hdd hd
      simp only [hdf, Bool.not_false, Bool.true_and]
      by_cases hh : get_file_hash fs p = digestOf content
      · obtain ⟨h1, h2⟩ := (get_file_hash_eq_digest_iff fs p content).1 hh
        have hne : get_file_hash fs p ≠ "" := by
          rw [hh]; exact digestOf_ne_empty content
        simp [hne, hh, h1, h2, digestOf_ne_empty content]
      · have hnot : ¬ (p ∉ fs.unreadable ∧ lookupFile fs.files p = some content) :=
          fun hc => hh ((get_file_hash_eq_digest_iff fs p content).2 hc)
        by_cases h1 : p ∈ fs.unreadable
        · simp [h1, hh]
        · have h2 : lookupFile fs.files p ≠ some content :=
            fun hc => hnot ⟨h1, hc⟩
          simp [h1, h2, hh]

/-- A directory with two byte-identical readable files, one distinct file
and one unreadable file with the same bytes as the identical pair. -/
def c8fs : FS :=
  { files := [(["s", "a.txt"], "A"), (["s", "b.txt"], "B"),
      (["s", "c.txt"], "A"), (["s", "d.txt"], "A")]
    dirs := [["s"]]
    unreadable := [["s", "d.txt"]]
    undeletable := []
    unmovable := []
    listdirError := false
    mtimeMonth := fun _ => "2024-01" }

/-- Witness: C8 on `c8fs` — one group of exactly the two readable
byte-identical files; the unreadable same-content file is excluded, and the
computed result is that single group. -/
theorem c8_find_duplicates_witness :
    c8fs.listdirError = false ∧
    find_duplicates c8fs ["s"] =
      [(digestOf "A", [["s", "a.txt"], ["s", "c.txt"]])] ∧
    (∀ g ∈ find_duplicates c8fs ["s"], 1 < g.2.length) ∧
    (∀ content : String,
      groupPaths c8fs ["s"] (listdirNames c8fs ["s"]) (digestOf content) =
        ((listdirNames c8fs ["s"]).map (fun nm => ["s"] ++ [nm])).filter
          (fun p => !(isDir c8fs p) && decide (p ∉ c8fs.unreadable) &&
            decide (lookupFile c8fs.files p = some content))) :=
  ⟨rfl, rfl, (c8_find_duplicates_exact_groups c8fs ["s"] rfl).1,
    (c8_find_duplicates_exact_groups c8fs ["s"] rfl).2.2.2.2⟩

/-! ### Dry-run against real-run simulation -/

theorem handle_duplicate_error_strategy (fs : FS) (src dst : AbsPath)
    (strategy : String)
    (h : handle_duplicate fs src dst strategy = .error ()) :
    strategy = "replace" := by
  unfold handle_duplicate at h
  by_cases hex : pathExists fs dst = true
  · rw [if_neg (not_not_intro hex)] at h
    by_cases hsk : strategy = "skip"
    · rw [if_pos hsk] at h; cases h
    · rw [if_neg hsk] at h
      by_cases hrp : strategy = "replace"
      · exact hrp
      · rw [if_neg hrp] at h
        by_cases hrn : strategy = "rename"
        · rw [if_pos hrn] at h; cases h
        · rw [if_neg hrn] at h; cases h
  · rw [if_pos hex] at h; cases h

theorem handle_duplicate_fs_unchanged (fs : FS) (src dst : AbsPath)
    (strategy : String) (fs1 : FS) (opt : Option AbsPath)
    (hrep : strategy ≠ "replace")
    (h : handle_duplicate fs src dst strategy = .ok (fs1, opt)) :
    fs1 = fs := by
  unfold handle_duplicate at h
  by_cases hex : pathExists fs dst = true
  · rw [if_neg (not_not_intro hex)] at h
    by_cases hsk : strategy = "skip"
    · rw [if_pos hsk] at h
      injection h with h1; injection h1 with h2 _; exact h2.symm
    · rw [if_neg hsk, if_neg hrep] at h
      by_cases hrn : strategy = "rename"
      · rw [if_pos hrn] at h
        injection h with h1; injection h1 with h2 _; exact h2.symm
      · rw [if_neg hrn] at h
        injection h with h1; injection h1 with h2 _; exact h2.symm
  · rw [if_pos hex] at h
    injection h with h1; injection h1 with h2 _; exact h2.symm

/-- Does a real pass starting from `fs0` move the entry `n` (equivalently,
does a dry pass count it as moved)?  False for directories, the history
file's base name, uncategorized entries and `skip`-policy collisions. -/
def eligibleMoved (P : SortParams) (fs0 : FS) (n : String) : Bool :=
  if isDir fs0 (P.sourceDir ++ [n]) || decide (n = P.histName) then false
  else
    match get_category_for_extension P.cfg (strLower (splitextStr n).2) with
    | none => false
    | some category =>
      let destDir := if P.organizeByDate then
          P.sourceDir ++ [category, fs0.mtimeMonth (P.sourceDir ++ [n])]
        else P.sourceDir ++ [category]
      if P.strategy = "skip" ∧ pathExists fs0 (destDir ++ [n]) = true then false
      else true

theorem isDir_agree (P : SortParams) (fs0 fsR : FS) (sR : SortStats)
    (opsR : List OpRecord) (n : String)
    (hInv : PassInv P fs0 fsR sR opsR)
    (hnf : n ∉ opsR.map OpRecord.filename)
    (hex : pathExists fs0 (P.sourceDir ++ [n]) = true) :
    isDir fsR (P.sourceDir ++ [n]) = isDir fs0 (P.sourceDir ++ [n]) := by
  cases hd0 : isDir fs0 (P.sourceDir ++ [n]) with
  | true =>
    have hmem : P.sourceDir ++ [n] ∈ fs0.dirs := of_decide_eq_true hd0
    unfold isDir
    rw [decide_eq_true (hInv.dirsMono hmem)]
  | false =>
    cases hdR : isDir fsR (P.sourceDir ++ [n]) with
    | false => rfl
    | true =>
      exfalso
      have hmem : P.sourceDir ++ [n] ∈ fsR.dirs := of_decide_eq_true hdR
      have hnot0 : P.sourceDir ++ [n] ∉ fs0.dirs := of_decide_eq_false hd0
      rcases hInv.newDirsShallow (P.sourceDir ++ [n]) (by simp) hmem with
        h | h | h
      · exact hnot0 h
      · unfold pathExists isFile isDir at hex
        rw [h] at hex
        have hmem0 : P.sourceDir ++ [n] ∈ fs0.dirs := by
          rcases Bool.or_eq_true_iff.1 hex with h1 | h1
          · simp at h1
          · exact of_decide_eq_true h1
        exact hnot0 hmem0
      · rw [mem_srcs_iff_mem_fnames P fs0 fsR sR opsR hInv] at h
        exact hnf h

theorem destExists_agree (P : SortParams) (fs0 fsR : FS) (sR : SortStats)
    (opsR : List OpRecord) (n : String) (dp : AbsPath)
    (hInv : PassInv P fs0 fsR sR opsR)
    (hnf : n ∉ opsR.map OpRecord.filename)
    (hnrep : P.strategy ≠ "replace") (hnren : P.strategy ≠ "rename")
    (hdpLast : dp.getLastD "" = n)
    (hdplen : dp.length = P.sourceDir.length + (if P.organizeByDate then 3 else 2)) :
    pathExists fsR dp = pathExists fs0 dp := by
  have hdpbig : P.sourceDir.length + 2 ≤ dp.length := by
    rw [hdplen]
    by_cases hoD : P.organizeByDate = true
    · rw [if_pos hoD]; omega
    · rw [if_neg hoD]
  have hdnot : dp ∉ opsR.map OpRecord.destination := by
    rw [List.mem_map]
    rintro ⟨op, hop, hopd⟩
    have hdn := hInv.destName hnren op hop
    rw [hopd, hdpLast] at hdn
    exact hnf (hdn ▸ List.mem_map_of_mem OpRecord.filename hop)
  have hsrc : dp ∉ opsR.map OpRecord.source := by
    rw [List.mem_map]
    rintro ⟨op, hop, hops⟩
    have := (hInv.opShape op hop).1
    have hlen : op.source.length = P.sourceDir.length + 1 := by rw [this]; simp
    rw [hops] at hlen
    omega
  have hfiles : lookupFile fsR.files dp = lookupFile fs0.files dp := by
    have := hInv.fullFrame hnrep dp hdnot
    rw [if_neg hsrc] at this
    exact this
  have hdirs : (decide (dp ∈ fsR.dirs) : Bool) = decide (dp ∈ fs0.dirs) := by
    by_cases hm : dp ∈ fsR.dirs
    · rcases hInv.dirsLen dp hm with h | h
      · rw [decide_eq_true hm, decide_eq_true h]
      · exfalso
        by_cases hoD : P.organizeByDate = true
        · rw [if_pos hoD] at h hdplen; omega
        · rw [if_neg hoD] at h hdplen; omega
    · have hm0 : dp ∉ fs0.dirs := fun hc => hm (hInv.dirsMono hc)
      rw [decide_eq_false hm, decide_eq_false hm0]
  unfold pathExists isFile isDir
  rw [hfiles, hdirs]

set_option maxHeartbeats 1000000

theorem processEntry_dry_step (P : SortParams) (fs0 : FS) (sD : SortStats)
    (ops0 : List OpRecord) (n : String)
    (hdry : P.dryRun = true) (hrep : P.strategy ≠ "replace") :
    ∃ s2 : SortStats, processEntry P (sD, fs0, ops0) n = .ok (s2, fs0, ops0) ∧
      s2.moved = sD.moved + (if eligibleMoved P fs0 n then 1 else 0) ∧
      s2.errors = sD.errors := by
  unfold processEntry eligibleMoved
  simp only
  by_cases hc1 : (isDir fs0 (P.sourceDir ++ [n]) || decide (n = P.histName)) = true
  · rw [if_pos hc1, if_pos hc1]
    exact ⟨sD, rfl, by simp, rfl⟩
  · rw [if_neg hc1, if_neg hc1]
    cases hcat : get_category_for_extension P.cfg (strLower (splitextStr n).2) with
    | none =>
      simp only [hcat]
      exact ⟨_, rfl, by simp, rfl⟩
    | some cat =>
      simp only [hcat]
      by_cases hskipex : P.strategy = "skip" ∧
          pathExists fs0 ((if P.organizeByDate = true then
            P.sourceDir ++ [cat, fs0.mtimeMonth (P.sourceDir ++ [n])]
          else P.sourceDir ++ [cat]) ++ [n]) = true
      · have hhd : handle_duplicate fs0 (P.sourceDir ++ [n])
            ((if P.organizeByDate = true then
              P.sourceDir ++ [cat, fs0.mtimeMonth (P.sourceDir ++ [n])]
            else P.sourceDir ++ [cat]) ++ [n]) P.strategy = .ok (fs0, none) := by
          rw [hskipex.1]
          exact handle_duplicate_skip fs0 _ _ hskipex.2
        rw [hhd]
        simp only
        refine ⟨_, rfl, ?_, rfl⟩
        simp only [if_pos hskipex]
        simp
      · cases hhd : handle_duplicate fs0 (P.sourceDir ++ [n])
            ((if P.organizeByDate = true then
              P.sourceDir ++ [cat, fs0.mtimeMonth (P.sourceDir ++ [n])]
            else P.sourceDir ++ [cat]) ++ [n]) P.strategy with
        | error e =>
          exact absurd (handle_duplicate_error_strategy _ _ _ _ hhd) hrep
        | ok pr =>
          obtain ⟨fs1, opt⟩ := pr
          have hfs1 : fs1 = fs0 :=
            handle_duplicate_fs_unchanged _ _ _ _ _ _ hrep hhd
          cases opt with
          | none =>
            rw [hfs1] at hhd
            obtain ⟨_, hsk, hex⟩ := handle_duplicate_none_inv _ _ _ _ _ hhd
            exact absurd ⟨hsk, hex⟩ hskipex
          | some fd =>
            dsimp only
            refine ⟨{ sD with moved := sD.moved + 1 }, ?_, ?_, rfl⟩
            · simp [hdry, hfs1]
            · simp only [if_neg hskipex]
              simp

theorem processEntry_real_moved (P : SortParams) (fs0 fsR : FS) (sR : SortStats)
    (opsR : List OpRecord) (n : String)
    (hdry : P.dryRun = false) (hrep : P.strategy ≠ "replace")
    (hInv : PassInv P fs0 fsR sR opsR)
    (hnf : n ∉ opsR.map OpRecord.filename)
    (hex0 : pathExists fs0 (P.sourceDir ++ [n]) = true) :
    ∀ s2 f2 o2, processEntry P (sR, fsR, opsR) n = .ok (s2, f2, o2) →
      s2.errors = sR.errors →
      s2.moved = sR.moved + (if eligibleMoved P fs0 n then 1 else 0) := by
  have hdir := isDir_agree P fs0 fsR sR opsR n hInv hnf hex0
  have hmt := hInv.mtimeEq
  intro s2 f2 o2 hstep herr
  unfold processEntry at hstep
  simp only at hstep
  split at hstep
  · rename_i hcond
    injection hstep with h1
    injection h1 with ha hbc
    subst ha
    have hcond0 : (isDir fs0 (P.sourceDir ++ [n]) || decide (n = P.histName)) = true := by
      rw [← hdir]; exact hcond
    unfold eligibleMoved
    rw [if_pos hcond0]
    simp
  · rename_i hcond
    have hcond0 : ¬ (isDir fs0 (P.sourceDir ++ [n]) || decide (n = P.histName)) = true := by
      rw [← hdir]; exact hcond
    split at hstep
    · rename_i hcat
      injection hstep with h1
      injection h1 with ha hbc
      subst ha
      unfold eligibleMoved
      rw [if_neg hcond0]
      simp only [hcat]
      simp
    · rename_i cat hcat
      have hdpeq : (if P.organizeByDate = true then
            P.sourceDir ++ [cat, fsR.mtimeMonth (P.sourceDir ++ [n])]
          else P.sourceDir ++ [cat]) ++ [n] =
          (if P.organizeByDate = true then
            P.sourceDir ++ [cat, fs0.mtimeMonth (P.sourceDir ++ [n])]
          else P.sourceDir ++ [cat]) ++ [n] := by
        rw [hmt]
      have hdpLast : ((if P.organizeByDate = true then
            P.sourceDir ++ [cat, fsR.mtimeMonth (P.sourceDir ++ [n])]
          else P.sourceDir ++ [cat]) ++ [n]).getLastD "" = n :=
        List.getLastD_concat _ _ _
      have hdplen : ((if P.organizeByDate = true then
            P.sourceDir ++ [cat, fsR.mtimeMonth (P.sourceDir ++ [n])]
          else P.sourceDir ++ [cat]) ++ [n]).length =
          P.sourceDir.length + (if P.organizeByDate then 3 else 2) := by
        by_cases hoD : P.organizeByDate = true <;> simp [hoD]
      split at hstep
      · cases hstep
      · rename_i fs1 hhd
        obtain ⟨hfs1, hsk, hexR⟩ := handle_duplicate_none_inv _ _ _ _ _ hhd
        have hnren : P.strategy ≠ "rename" := by
          rw [hsk]; decide
        have hagree := destExists_agree P fs0 fsR sR opsR n _ hInv hnf hrep hnren
          hdpLast hdplen
        injection hstep with h1
        injection h1 with ha hbc
        subst ha
        unfold eligibleMoved
        rw [if_neg hcond0]
        simp only [hcat]
        have hex0dp : P.strategy = "skip" ∧
            pathExists fs0 ((if P.organizeByDate = true then
              P.sourceDir ++ [cat, fs0.mtimeMonth (P.sourceDir ++ [n])]
            else P.sourceDir ++ [cat]) ++ [n]) = true := by
          refine ⟨hsk, ?_⟩
          rw [← hdpeq, ← hagree]
          exact hexR
        simp only [if_pos hex0dp]
        simp
      · rename_i fs1 fd hhd
        split at hstep
        · rename_i hdrycond
          rw [hdry] at hdrycond
          cases hdrycond
        · rename_i hdrycond
          split at hstep
          · injection hstep with h1
            injection h1 with ha hbc
            subst ha
            exfalso
            simp at herr
          · rename_i fs2x hmk
            split at hstep
            · injection hstep with h1
              injection h1 with ha hbc
              subst ha
              exfalso
              simp at herr
            · rename_i fs3 hmv
              injection hstep with h1
              injection h1 with ha hbc
              subst ha
              unfold eligibleMoved
              rw [if_neg hcond0]
              simp only [hcat]
              have hnotskipex : ¬ (P.strategy = "skip" ∧
                  pathExists fs0 ((if P.organizeByDate = true then
                    P.sourceDir ++ [cat, fs0.mtimeMonth (P.sourceDir ++ [n])]
                  else P.sourceDir ++ [cat]) ++ [n]) = true) := by
                rintro ⟨hsk, hex1⟩
                have hnren : P.strategy ≠ "rename" := by
                  rw [hsk]; decide
                have hagree := destExists_agree P fs0 fsR sR opsR n _ hInv hnf
                  hrep hnren hdpLast hdplen
                have hexR : pathExists fsR ((if P.organizeByDate = true then
                    P.sourceDir ++ [cat, fsR.mtimeMonth (P.sourceDir ++ [n])]
                  else P.sourceDir ++ [cat]) ++ [n]) = true := by
                  rw [hagree, hdpeq]
                  exact hex1
                rw [hsk] at hhd
                rw [handle_duplicate_skip fsR _ _ hexR] at hhd
                cases hhd
              simp only [if_neg hnotskipex]
              simp

theorem passFold_dry_count (P : SortParams) (fs0 : FS)
    (hdry : P.dryRun = true) (hrep : P.strategy ≠ "replace") :
    ∀ (rest : List String) (sD : SortStats) (ops0 : List OpRecord),
      ∃ statsD : SortStats,
        passFold P (sD, fs0, ops0) rest = .ok (statsD, fs0, ops0) ∧
        statsD.moved = sD.moved + rest.countP (fun m => eligibleMoved P fs0 m) ∧
        statsD.errors = sD.errors := by
  intro rest
  induction rest with
  | nil => intro sD ops0; exact ⟨sD, rfl, by simp, rfl⟩
  | cons n rest ih =>
    intro sD ops0
    obtain ⟨s1, hs1, hm1, he1⟩ := processEntry_dry_step P fs0 sD ops0 n hdry hrep
    obtain ⟨statsD, hfold, hm2, he2⟩ := ih s1 ops0
    refine ⟨statsD, ?_, ?_, he2.trans he1⟩
    · unfold passFold
      rw [hs1]
      exact hfold
    · rw [hm2, hm1, List.countP_cons]
      by_cases he : eligibleMoved P fs0 n = true <;> simp [he] <;> omega

theorem passFold_real_count (P : SortParams) (fs0 : FS)
    (hdry : P.dryRun = false) (hrep : P.strategy ≠ "replace") :
    ∀ (rest : List String) (sR : SortStats) (fsR : FS) (opsR : List OpRecord)
      (resR : SortStats × FS × List OpRecord),
      PassInv P fs0 fsR sR opsR →
      (∀ op ∈ opsR, op.filename ∉ rest) →
      rest.Nodup →
      (∀ m ∈ rest, pathExists fs0 (P.sourceDir ++ [m]) = true) →
      passFold P (sR, fsR, opsR) rest = .ok resR →
      resR.1.errors = sR.errors →
      resR.1.moved = sR.moved + rest.countP (fun m => eligibleMoved P fs0 m) := by
  intro rest
  induction rest with
  | nil =>
    intro sR fsR opsR resR _ _ _ _ hfold _
    unfold passFold at hfold
    injection hfold with h1
    rw [← h1]
    simp
  | cons n rest ih =>
    intro sR fsR opsR resR hInv hdisj hnd hexall hfold herr
    unfold passFold at hfold
    cases hpe : processEntry P (sR, fsR, opsR) n with
    | error e => rw [hpe] at hfold; cases hfold
    | ok acc1 =>
      rw [hpe] at hfold
      obtain ⟨s1, f1, o1⟩ := acc1
      have hnf : n ∉ opsR.map OpRecord.filename := by
        rw [List.mem_map]
        rintro ⟨op, hop, hopf⟩
        exact hdisj op hop (by rw [hopf]; exact List.mem_cons_self n rest)
      obtain ⟨hInv1, hops1, herr1, _⟩ :=
        processEntry_preserves P fs0 fsR sR opsR n hInv hnf s1 f1 o1 hpe
      rw [List.nodup_cons] at hnd
      have hdisj1 : ∀ op ∈ o1, op.filename ∉ rest := by
        intro op hop
        rcases hops1 with hsame | ⟨newOp, hnew, hfn, _⟩
        · subst hsame
          exact fun hc => hdisj op hop (List.mem_cons_of_mem n hc)
        · subst hnew
          rw [List.mem_append] at hop
          rcases hop with hop | hop
          · exact fun hc => hdisj op hop (List.mem_cons_of_mem n hc)
          · rw [List.mem_singleton] at hop
            subst hop
            rw [hfn]
            exact hnd.1
      have hmono :=
        (passFold_preserves P fs0 rest s1 f1 o1 resR hInv1 hdisj1 hnd.2 hfold).2.2
      have hs1err : s1.errors = sR.errors := by
        have h1 : s1.errors ≤ sR.errors := by rw [← herr]; exact hmono
        omega
      have hcount := processEntry_real_moved P fs0 fsR sR opsR n hdry hrep hInv
        hnf (hexall n (List.mem_cons_self n rest)) s1 f1 o1 hpe hs1err
      have hih := ih s1 f1 o1 resR hInv1 hdisj1 hnd.2
        (fun m hm => hexall m (List.mem_cons_of_mem n hm)) hfold
        (herr.trans hs1err.symm)
      rw [hih, hcount, List.countP_cons]
      by_cases he : eligibleMoved P fs0 n = true <;> simp [he] <;> omega

/-- C2 (amended): `sort_files` with `dry_run=True` performs no file move and
never mutates the Operation Log, and the returned `moved` count equals the
number of files an error-free real pass would move; but the filesystem is
not left completely unchanged — `_ensure_directories_exist` runs before the
flag is consulted, so missing category directories are still created (and
under the `replace` policy, excluded here, the resolver would even delete
colliding destination files during a dry run). -/
theorem c2_dry_run_amended (P : SortParams) (createSubdirs : Bool)
    (st : SorterState)
    (hdry : P.dryRun = true) (hrep : P.strategy ≠ "replace")
    (hwf : st.fs.WF) :
    ∀ stats st2, sort_files P createSubdirs st = .ok (stats, st2) →
      st2.fs.files = st.fs.files ∧
      st2.history = st.history ∧
      st2.fs.dirs =
        (ensure_directories_exist P.cfg createSubdirs P.sourceDir st.fs).dirs ∧
      ∀ statsR stR,
        sort_files { P with dryRun := false } createSubdirs st =
          .ok (statsR, stR) →
        statsR.errors = 0 →
        stats.moved = statsR.moved := by
  intro stats st2 hok
  have hfacts := ensure_dirs_facts P.cfg createSubdirs P.sourceDir st.fs
  set fs0 := ensure_directories_exist P.cfg createSubdirs P.sourceDir st.fs
    with hfs0
  have hfsr : ensure_directories_exist ({ P with dryRun := false }).cfg
      createSubdirs ({ P with dryRun := false }).sourceDir st.fs = fs0 := rfl
  unfold sort_files at hok
  by_cases hld : fs0.listdirError = true
  · rw [if_pos hld] at hok
    injection hok with h1
    injection h1 with ha hb
    refine ⟨?_, ?_, ?_, ?_⟩
    · rw [← hb]; exact hfacts.1
    · rw [← hb]
    · rw [← hb]
    · intro statsR stR hokR _
      unfold sort_files at hokR
      rw [hfsr, if_pos hld] at hokR
      injection hokR with h2
      injection h2 with hc hd
      rw [← ha, ← hc]
  · rw [if_neg hld] at hok
    obtain ⟨statsD, hfoldD, hmD, _⟩ := passFold_dry_count P fs0 hdry hrep
      (listdirNames fs0 P.sourceDir) ⟨0, 0, 0⟩ []
    rw [hfoldD] at hok
    simp only [List.isEmpty_nil, Bool.true_or, if_true] at hok
    injection hok with h1
    injection h1 with ha hb
    refine ⟨?_, ?_, ?_, ?_⟩
    · rw [← hb]; exact hfacts.1
    · rw [← hb]
    · rw [← hb]
    · intro statsR stR hokR herrR
      unfold sort_files at hokR
      rw [hfsr, if_neg hld] at hokR
      cases hfoldR : passFold { P with dryRun := false } (⟨0, 0, 0⟩, fs0, [])
          (listdirNames fs0 P.sourceDir) with
      | error e => rw [hfoldR] at hokR; cases hokR
      | ok resR =>
        rw [hfoldR] at hokR
        obtain ⟨sRf, fsRf, opsRf⟩ := resR
        injection hokR with h2
        injection h2 with hc hd
        have hwf0 : fs0.WF := hfacts.2.2.2.2.2.2 hwf
        have hexall : ∀ m ∈ listdirNames fs0 P.sourceDir,
            pathExists fs0 (P.sourceDir ++ [m]) = true := by
          intro m hm
          rw [mem_listdirNames, List.mem_append] at hm
          unfold pathExists isFile isDir
          rcases hm with h | h
          · rw [← lookupFile_isSome_iff_mem] at h
            rw [h]
            simp
          · rw [decide_eq_true h]
            simp
        have hcountR := passFold_real_count { P with dryRun := false } fs0 rfl
          hrep (listdirNames fs0 P.sourceDir) ⟨0, 0, 0⟩ fs0 []
          (sRf, fsRf, opsRf) (PassInv.start _ fs0) (by simp)
          (listdirNames_nodup fs0 P.sourceDir hwf0) hexall hfoldR
          (by rw [← hc] at herrR; exact herrR)
        rw [← ha, ← hc]
        rw [hmD]
        have hmoved : sRf.moved =
            (listdirNames fs0 P.sourceDir).countP
              (fun m => eligibleMoved P fs0 m) := by
          have := hcountR
          simpa using this
        rw [hmoved]
        simp

/-- A one-file source directory with no category folders yet, for the
dry-run counterexample. -/
def c2fs : FS :=
  { files := [(["s", "v.mp4"], "A")]
    dirs := [["s"]]
    unreadable := []
    undeletable := []
    unmovable := []
    listdirError := false
    mtimeMonth := fun _ => "2024-01" }

/-- Dry-run parameters over the default configuration. -/
def c2P : SortParams :=
  { cfg := ⟨DEFAULT_CATEGORIES⟩, sourceDir := ["s"]
    histName := "file_sorter_history.json"
    dryRun := true, strategy := "rename", organizeByDate := false }

/-- The state returned by the dry run on `c2fs`: no file moved and no log
entry, but all eight category directories were created. -/
def c2st2 : SorterState :=
  ⟨{ c2fs with
      dirs := [["s"], ["s", "Videos"], ["s", "Pictures"], ["s", "Music"],
        ["s", "Documents"], ["s", "Archives"], ["s", "Code"],
        ["s", "Executables"], ["s", "Spreadsheets"]] },
   []⟩

/-- C2 is false as stated: a dry run does not leave the directory tree
unchanged.  `_ensure_directories_exist` runs before the `dry_run` flag is
consulted, so the pass on `c2fs` creates every missing category directory
even though `dry_run=True`. -/
theorem c2_counterexample :
    sort_files c2P true ⟨c2fs, []⟩ = .ok (⟨1, 0, 0⟩, c2st2) ∧
    c2st2.fs.dirs ≠ c2fs.dirs := ⟨rfl, by decide⟩

/-- Witness: the amended C2 on `c2fs` — the dry run touches no file and no
log entry, its directories are exactly the ensured category directories,
and its `moved` count agrees with any error-free real pass. -/
theorem c2_dry_run_witness :
    c2P.dryRun = true ∧ c2P.strategy ≠ "replace" ∧
    (SorterState.mk c2fs []).fs.WF ∧
    sort_files c2P true ⟨c2fs, []⟩ = .ok (⟨1, 0, 0⟩, c2st2) ∧
    (c2st2.fs.files = (SorterState.mk c2fs []).fs.files ∧
     c2st2.history = (SorterState.mk c2fs []).history ∧
     c2st2.fs.dirs =
       (ensure_directories_exist c2P.cfg true c2P.sourceDir c2fs).dirs ∧
     ∀ statsR stR,
       sort_files { c2P with dryRun := false } true ⟨c2fs, []⟩ =
         .ok (statsR, stR) →
       statsR.errors = 0 →
       (1 : Nat) = statsR.moved) :=
  ⟨rfl, by decide, ⟨by decide, by decide, by decide⟩, rfl,
    c2_dry_run_amended c2P true ⟨c2fs, []⟩ rfl (by decide)
      ⟨by decide, by decide, by decide⟩ ⟨1, 0, 0⟩ c2st2 rfl⟩
